import Mathlib

/-!
Verification development for the block-template assembler of a hybrid
PoW/PoS cryptocurrency node (file `src/node/miner.cpp`).

The C++ source is shallowly embedded: each member function of
`BlockAssembler` (and the free functions `UpdateTime`,
`updateMinerParams`) becomes a pure Lean function acting on an explicit
state record.  Machine integers are modelled as `Nat` (unsigned
counters, weights, sigop costs, gas) or `Int` (`CAmount` fees, times);
external collaborators (mempool ancestor/descendant queries, the
contract VM, comparators, fee-rate arithmetic) are parameters of the
model, exactly as wide as the interface the source uses.
-/

namespace QtumMiner

/-- Consensus constant `WITNESS_SCALE_FACTOR` from `consensus/consensus.h`. -/
def WITNESS_SCALE_FACTOR : Nat := 4

/-! ### TestPackage (miner.cpp lines 253-263)

`BlockAssembler::TestPackage` reads the assembler fields
`nBlockWeight`, `nBlockMaxWeight`, `nBlockSigOpsCost` and the DGP limit
`dgpMaxBlockSigOps`; we pass them explicitly. -/

/-- Embedding of `BlockAssembler::TestPackage`: returns `false` when
`nBlockWeight + WITNESS_SCALE_FACTOR * packageSize >= nBlockMaxWeight`,
`false` when `nBlockSigOpsCost + packageSigOpsCost >= dgpMaxBlockSigOps`,
else `true`. -/
def testPackage (nBlockWeight nBlockMaxWeight nBlockSigOpsCost dgpMaxBlockSigOps
    packageSize packageSigOpsCost : Nat) : Bool :=
  if nBlockWeight + WITNESS_SCALE_FACTOR * packageSize ≥ nBlockMaxWeight then
    false
  else if nBlockSigOpsCost + packageSigOpsCost ≥ dgpMaxBlockSigOps then
    false
  else
    true

/-! ### Transactions and outputs (data model for the refund rebuild) -/

/-- Model of `CTxOut`: a value (`CAmount`, i.e. `int64_t`) and an abstract
script identifier standing for `scriptPubKey`. -/
structure TxOutM where
  nValue : Int
  scriptPubKey : Nat
  deriving Repr, DecidableEq

/-- Model of `CTransaction` / `CMutableTransaction`: abstract inputs and a
list of outputs. -/
structure TxM where
  vin : List Nat
  vout : List TxOutM
  deriving Repr, DecidableEq

/-- Overwrite the `nValue` of the output at position `i`, leaving the rest
of the list untouched (this is `contrTx.vout[refundtx].nValue = v;` on an
in-bounds index; out of bounds the list is returned unchanged). -/
def setValAt : List TxOutM → Nat → Int → List TxOutM
  | [], _, _ => []
  | o :: t, 0, v => { o with nValue := v } :: t
  | o :: t, i + 1, v => o :: setValAt t i v

/-- Embedding of `BlockAssembler::RebuildRefundTransaction` (miner.cpp
lines 146-162).  `refundtx` is 0 for PoW (coinbase) and 1 for PoS
(coinstake).  The rebuilt transaction starts from `originalRewardTx`,
overwrites the value at the reward index with
`nFees + GetBlockSubsidy(nHeight) - bceResult.refundSender` (the source
assigns `nFees + subsidy` and then subtracts `refundSender`), appends
`bceResult.refundOutputs` verbatim (the source resizes `vout` and copies
each refund output into the fresh slots in order), and replaces slot
`refundtx` of the block's transaction list. -/
def rebuildRefundTransaction (originalRewardTx : TxM) (isProofOfStake : Bool)
    (nFees subsidy refundSender : Int) (refundOutputs : List TxOutM)
    (vtx : List TxM) : List TxM :=
  let refundtx : Nat := if isProofOfStake then 1 else 0
  let contrTx : TxM :=
    { originalRewardTx with
      vout := setValAt originalRewardTx.vout refundtx (nFees + subsidy - refundSender)
              ++ refundOutputs }
  vtx.set refundtx contrTx

/-! ### AttemptToAddContractToBlock (miner.cpp lines 277-422)

External collaborators (the VM, `GetAdjustedTimeSeconds`,
`GetLegacySigOpCount`, `GetTransactionWeight`, the operator flag, the
extraction step) are supplied as parameters: `ContractEnv` holds the
per-build constants and collaborator functions, `VMOracle` holds the
per-call outputs of the VM and clock.  The global contract-state roots
(`globalState->rootHash()`, `rootHashUTXO()`) live in the state record
alongside the assembler's accumulators. -/

/-- Model of `QtumTransaction`: the gas limit and gas price the
extraction step reads off a contract sub-transaction. -/
structure QTx where
  gas : Nat
  gasPrice : Nat
  deriving Repr, DecidableEq

/-- Model of `ByteCodeExecResult` as produced by
`ByteCodeExec::processingResults`. -/
structure ExecResultM where
  usedGas : Nat
  refundSender : Int
  refundOutputs : List TxOutM
  valueTransfers : List TxM
  deriving Repr, DecidableEq

/-- The data `AttemptToAddContractToBlock` reads from its mempool entry
iterator: the transaction, `GetTxWeight`, `GetSigOpCost`, `GetFee`. -/
structure CEntry where
  id : Nat
  tx : TxM
  txWeight : Nat
  sigOpCost : Nat
  fee : Int
  deriving Repr, DecidableEq

/-- Per-build constants and external collaborator functions used by
`AttemptToAddContractToBlock`. -/
structure ContractEnv where
  nTimeLimit : Int
  nBytecodeTimeBuffer : Int
  disableContractStaking : Bool
  txGasLimit : Nat
  softBlockGasLimit : Nat
  dgpMaxBlockSigOps : Nat
  dgpMaxBlockWeight : Nat
  isProofOfStake : Bool
  subsidy : Int
  originalRewardTx : TxM
  legacySigOpCount : TxM → Nat
  txWeightOf : TxM → Nat

/-- Per-call outputs of the clock, the extraction step and the contract
VM.  `execStateRoot`/`execUtxoRoot` are the global roots as left behind
by `performByteCode` (the VM mutates the global state while running;
the caller restores the snapshotted roots on every refusal). -/
structure VMOracle where
  now : Int
  extraction : Option (List QTx)
  execStateRoot : Nat
  execUtxoRoot : Nat
  performOk : Bool
  processOk : Bool
  execResult : ExecResultM

/-- The mutable state `AttemptToAddContractToBlock` can touch: the two
global contract-state roots, the assembler accumulators, the template's
parallel fee/sigops vectors, the block transaction list and the
accumulated contract execution result `bceResult`. -/
structure CState where
  stateRoot : Nat
  utxoRoot : Nat
  nBlockWeight : Nat
  nBlockSigOpsCost : Nat
  nBlockTx : Nat
  nFees : Int
  inBlock : List Nat
  blockVtx : List TxM
  vTxFees : List Int
  vTxSigOpsCost : List Int
  bceUsedGas : Nat
  bceRefundSender : Int
  bceRefundOutputs : List TxOutM
  bceValueTransfers : List TxM
  deriving Repr, DecidableEq

/-- Restore the snapshotted contract-state roots
(`globalState->setRoot(oldHashStateRoot); setRootUTXO(oldHashUTXORoot)`). -/
def restoreRoots (s : CState) (r u : Nat) : CState :=
  { s with stateRoot := r, utxoRoot := u }

/-- The default transaction used to read `pblock->vtx[proofTx]` (the
source indexes unconditionally; templates always carry the reward tx). -/
def defaultTx : TxM := { vin := [], vout := [] }

/-- The per-sub-transaction gas loop of `AttemptToAddContractToBlock`
(lines 304-325): accumulate `txGas`, refuse when the running total
exceeds `txGasLimit`, when `bceResult.usedGas + gas` exceeds
`softBlockGasLimit`, or when the gas price is below `minGasPrice`. -/
def gasPrecheck (txGasLimit softBlockGasLimit bceUsedGas minGasPrice : Nat) :
    Nat → List QTx → Bool
  | _, [] => true
  | txGas, q :: rest =>
    let txGas' := txGas + q.gas
    if txGas' > txGasLimit then false
    else if bceUsedGas + q.gas > softBlockGasLimit then false
    else if q.gasPrice < minGasPrice then false
    else gasPrecheck txGasLimit softBlockGasLimit bceUsedGas minGasPrice txGas' rest

/-- The commit path of `AttemptToAddContractToBlock` (miner.cpp lines
391-421): fold the execution result into `bceResult`, append the
contract transaction and its fee/sigops template entries, apply its
costs, append the value-transfer transactions, then rebuild the refund
transaction (subtracting the old reward-tx legacy sigops and adding the
rebuilt one's), and clear the pending value transfers. -/
def commitContract (env : ContractEnv) (res : ExecResultM) (iter : CEntry)
    (sx : CState) : CState :=
  let proofTx : Nat := if env.isProofOfStake then 1 else 0
  let s1 := { sx with
    bceUsedGas := sx.bceUsedGas + res.usedGas,
    bceRefundSender := sx.bceRefundSender + res.refundSender,
    bceRefundOutputs := sx.bceRefundOutputs ++ res.refundOutputs,
    bceValueTransfers := res.valueTransfers,
    blockVtx := sx.blockVtx ++ [iter.tx],
    vTxFees := sx.vTxFees ++ [iter.fee],
    vTxSigOpsCost := sx.vTxSigOpsCost ++ [(iter.sigOpCost : Int)],
    nBlockWeight := sx.nBlockWeight + iter.txWeight,
    nBlockTx := sx.nBlockTx + 1,
    nBlockSigOpsCost := sx.nBlockSigOpsCost + iter.sigOpCost,
    nFees := sx.nFees + iter.fee,
    inBlock := if iter.id ∈ sx.inBlock then sx.inBlock else iter.id :: sx.inBlock }
  let s2 := { s1 with
    blockVtx := s1.blockVtx ++ res.valueTransfers,
    nBlockWeight := s1.nBlockWeight + (res.valueTransfers.map env.txWeightOf).sum,
    nBlockSigOpsCost := s1.nBlockSigOpsCost
                        + (res.valueTransfers.map env.legacySigOpCount).sum,
    nBlockTx := s1.nBlockTx + res.valueTransfers.length }
  let s3 := { s2 with
    nBlockSigOpsCost := s2.nBlockSigOpsCost
                        - env.legacySigOpCount (s2.blockVtx.getD proofTx defaultTx) }
  let vtx4 := rebuildRefundTransaction env.originalRewardTx env.isProofOfStake
              s3.nFees env.subsidy s3.bceRefundSender s3.bceRefundOutputs s3.blockVtx
  let s4 := { s3 with
    blockVtx := vtx4,
    nBlockSigOpsCost := s3.nBlockSigOpsCost
                        + env.legacySigOpCount (vtx4.getD proofTx defaultTx) }
  { s4 with bceValueTransfers := [] }

/-- Embedding of `BlockAssembler::AttemptToAddContractToBlock`
(miner.cpp lines 277-422).  Returns the C++ return value together with
the state after the call.  Failure branches mirror the source exactly:
the branches before the VM runs leave the state untouched; the branches
after `performByteCode` restore the snapshotted roots and touch nothing
else.  The commit path is `commitContract`. -/
def attemptToAddContractToBlock (env : ContractEnv) (o : VMOracle)
    (iter : CEntry) (minGasPrice : Nat) (s : CState) : Bool × CState :=
  if env.nTimeLimit ≠ 0 ∧ o.now ≥ env.nTimeLimit - env.nBytecodeTimeBuffer then
    (false, s)
  else if env.disableContractStaking then
    (false, s)
  else
    let oldHashStateRoot := s.stateRoot
    let oldHashUTXORoot := s.utxoRoot
    match o.extraction with
    | none => (false, s)
    | some qtumTransactions =>
      if ¬ gasPrecheck env.txGasLimit env.softBlockGasLimit s.bceUsedGas
          minGasPrice 0 qtumTransactions then
        (false, s)
      else
        -- the VM runs and mutates the global roots
        let sx := { s with stateRoot := o.execStateRoot, utxoRoot := o.execUtxoRoot }
        if ¬ o.performOk then
          (false, restoreRoots sx oldHashStateRoot oldHashUTXORoot)
        else if ¬ o.processOk then
          (false, restoreRoots sx oldHashStateRoot oldHashUTXORoot)
        else
          let res := o.execResult
          if s.bceUsedGas + res.usedGas > env.softBlockGasLimit then
            (false, restoreRoots sx oldHashStateRoot oldHashUTXORoot)
          else
            -- apply contract tx and value-transfer costs to local copies
            let w1 := s.nBlockWeight + iter.txWeight
                      + (res.valueTransfers.map env.txWeightOf).sum
            let sg1 := s.nBlockSigOpsCost + iter.sigOpCost
                       + (res.valueTransfers.map env.legacySigOpCount).sum
            let proofTx : Nat := if env.isProofOfStake then 1 else 0
            let oldProof := sx.blockVtx.getD proofTx defaultTx
            let sg2 := sg1 - env.legacySigOpCount oldProof
            let contrTx : TxM := { oldProof with vout := oldProof.vout ++ res.refundOutputs }
            let sg3 := sg2 + env.legacySigOpCount contrTx
            if sg3 * WITNESS_SCALE_FACTOR > env.dgpMaxBlockSigOps ∨
                w1 > env.dgpMaxBlockWeight then
              (false, restoreRoots sx oldHashStateRoot oldHashUTXORoot)
            else
              (true, commitContract env res iter sx)

/-! ### addPackageTxs (miner.cpp lines 498-638)

The mempool is abstracted by: `ent` (the per-entry cached statistics the
loop reads), `anc` (`CalculateMemPoolAncestors` with unlimited limits —
modelled from the spec as the set of in-mempool, i.e. unconfirmed,
ancestors, since `txmempool.cpp` is outside the given sources), `desc`
(`CalculateDescendants`), the comparator `cmp`
(`CompareModifiedEntry` over the `ancestor_score_or_gas_price` index)
and `minFee` (`CFeeRate::GetFee`).  The base stream is the initial
`baseQueue` — the mempool's `ancestor_score_or_gas_price` iteration
order.  `IsFinalTx` is external; its verdict at the build's fixed
height and lock-time cutoff is the entry field `isFinal`. -/

/-- Which inclusion routine the selection loop invoked for a
transaction (event log of the include step). -/
inductive IncMethod
  | addToBlock
  | attemptContract
  deriving Repr, DecidableEq

/-- Cached per-entry mempool statistics read by the selection loop. -/
structure Entry where
  id : Nat
  sizeWithAncestors : Nat
  modFeesWithAncestors : Int
  sigOpCostWithAncestors : Nat
  txWeight : Nat
  sigOpCost : Nat
  fee : Int
  txSize : Nat
  modifiedFee : Int
  acnt : Nat
  hasCreateOrCall : Bool
  isFinal : Bool
  deriving Repr, DecidableEq

/-- Model of `CTxMemPoolModifiedEntry`: a shadow record with reduced
ancestor statistics. -/
structure ModEntry where
  id : Nat
  nSizeWithAncestors : Nat
  nModFeesWithAncestors : Int
  nSigOpCostWithAncestors : Nat
  deriving Repr, DecidableEq

/-- The external collaborators and limits `addPackageTxs` consults. -/
structure SelParams where
  ent : Nat → Entry
  anc : Nat → List Nat
  desc : Nat → List Nat
  cmp : ModEntry → ModEntry → Bool
  minFee : Nat → Int
  nBlockMaxWeight : Nat
  dgpMaxBlockSigOps : Nat

/-- The state threaded through the selection loop: the base-stream
cursor, the overlay `mapModifiedTx`, the `failedTx` set, the
consecutive-failure counter, and the assembler/template accumulators.
`blockSeq` is the sequence of mempool transactions appended to
`pblock->vtx` (the seeded coinbase slot is not a mempool entry and is
kept outside it); `trace` logs which inclusion routine was invoked. -/
structure SelState where
  baseQueue : List Nat
  mapModifiedTx : List ModEntry
  failedTx : List Nat
  nConsecutiveFailed : Nat
  inBlock : List Nat
  blockSeq : List Nat
  nBlockWeight : Nat
  nBlockSigOpsCost : Nat
  nBlockTx : Nat
  nFees : Int
  nPackagesSelected : Nat
  nDescendantsUpdated : Nat
  vTxFees : List Int
  vTxSigOpsCost : List Int
  trace : List (Nat × IncMethod)
  deriving Repr, DecidableEq

/-- Membership of an id in the overlay (keyed by mempool iterator). -/
def overlayMem (ov : List ModEntry) (id : Nat) : Bool :=
  ov.any (fun m => m.id = id)

/-- Erase from the overlay by identity (`mapModifiedTx.erase`). -/
def eraseMod (ov : List ModEntry) (id : Nat) : List ModEntry :=
  ov.filter (fun m => m.id ≠ id)

/-- `std::set` insert: add the element unless already present. -/
def setInsert (l : List Nat) (x : Nat) : List Nat :=
  if x ∈ l then l else x :: l

/-- The constructor `CTxMemPoolModifiedEntry(iter)`: a shadow record
initialised from the entry's cached ancestor statistics. -/
def modEntryOf (P : SelParams) (id : Nat) : ModEntry :=
  { id := id
    nSizeWithAncestors := (P.ent id).sizeWithAncestors
    nModFeesWithAncestors := (P.ent id).modFeesWithAncestors
    nSigOpCostWithAncestors := (P.ent id).sigOpCostWithAncestors }

/-- `update_for_parent_inclusion(it)`: subtract the included ancestor's
size, modified fee and sigop cost from the shadow record. -/
def updateForParentInclusion (P : SelParams) (itId : Nat) (m : ModEntry) : ModEntry :=
  let it := P.ent itId
  { m with
    nSizeWithAncestors := m.nSizeWithAncestors - it.txSize
    nModFeesWithAncestors := m.nModFeesWithAncestors - it.modifiedFee
    nSigOpCostWithAncestors := m.nSigOpCostWithAncestors - it.sigOpCost }

/-- The best entry of the overlay under the comparator — the element
`mapModifiedTx.get<ancestor_score_or_gas_price>().begin()` points at. -/
def bestMod (cmp : ModEntry → ModEntry → Bool) : List ModEntry → Option ModEntry
  | [] => none
  | m :: rest => some (rest.foldl (fun b x => if cmp x b then x else b) m)

/-- The candidate the loop settled on for this iteration: the chosen
entry, whether it came from the overlay, and the effective package
statistics (`packageSize`, `packageFees`, `packageSigOpsCost`). -/
structure Cand where
  id : Nat
  usingModified : Bool
  pkgSize : Nat
  pkgFees : Int
  pkgSigOps : Nat
  deriving Repr, DecidableEq

/-- Candidate statistics taken directly from the mempool entry. -/
def baseCand (P : SelParams) (id : Nat) : Cand :=
  { id := id, usingModified := false
    pkgSize := (P.ent id).sizeWithAncestors
    pkgFees := (P.ent id).modFeesWithAncestors
    pkgSigOps := (P.ent id).sigOpCostWithAncestors }

/-- Candidate statistics taken from the overlay record. -/
def modCand (m : ModEntry) : Cand :=
  { id := m.id, usingModified := true
    pkgSize := m.nSizeWithAncestors
    pkgFees := m.nModFeesWithAncestors
    pkgSigOps := m.nSigOpCostWithAncestors }

/-- Outcome of the head of one outer-loop iteration: the while
condition failed, a stale base entry was skipped (`continue` after
`++mi`), or a candidate was selected (with the base cursor advanced
exactly when the candidate came from the base stream). -/
inductive Phase
  | exitLoop
  | skip (s' : SelState)
  | cand (c : Cand) (s' : SelState)

/-- The head of one iteration of the `addPackageTxs` while loop
(miner.cpp lines 517-577): test the while condition, skip base entries
that are in the overlay, in the block or in `failedTx`, then choose
between the base entry and the best overlay entry by the comparator. -/
def classify (P : SelParams) (s : SelState) : Phase :=
  match s.baseQueue with
  | [] =>
    match bestMod P.cmp s.mapModifiedTx with
    | none => .exitLoop
    | some m => .cand (modCand m) s
  | hd :: tl =>
    if overlayMem s.mapModifiedTx hd ∨ hd ∈ s.inBlock ∨ hd ∈ s.failedTx then
      .skip { s with baseQueue := tl }
    else
      match bestMod P.cmp s.mapModifiedTx with
      | some m =>
        if P.cmp m (modEntryOf P hd) then .cand (modCand m) s
        else .cand (baseCand P hd) { s with baseQueue := tl }
      | none => .cand (baseCand P hd) { s with baseQueue := tl }

/-- The package for a candidate: `CalculateMemPoolAncestors`, then
`onlyUnconfirmed` (drop ancestors already in the block), then insert
the candidate itself. -/
def packageOf (P : SelParams) (s : SelState) (id : Nat) : List Nat :=
  ((P.anc id).filter (fun a => decide (a ∉ s.inBlock))) ++ [id]

/-- `SortForBlock` (miner.cpp lines 477-486): copy the package and sort
it by ancestor count (`CompareTxIterByAncestorCount`); any
comparator-sorted permutation is a faithful model of `std::sort`. -/
def sortForBlock (P : SelParams) (pkg : List Nat) : List Nat :=
  List.insertionSort (fun a b => (P.ent a).acnt ≤ (P.ent b).acnt) pkg

/-- Embedding of `BlockAssembler::AddToBlock` (miner.cpp lines 424-441)
as it acts on the selection state, plus the `IncMethod` event log. -/
def addToBlockStep (P : SelParams) (s : SelState) (id : Nat) : SelState :=
  let e := P.ent id
  { s with
    blockSeq := s.blockSeq ++ [id]
    vTxFees := s.vTxFees ++ [e.fee]
    vTxSigOpsCost := s.vTxSigOpsCost ++ [(e.sigOpCost : Int)]
    nBlockWeight := s.nBlockWeight + e.txWeight
    nBlockTx := s.nBlockTx + 1
    nBlockSigOpsCost := s.nBlockSigOpsCost + e.sigOpCost
    nFees := s.nFees + e.fee
    inBlock := setInsert s.inBlock id
    trace := s.trace ++ [(id, IncMethod.addToBlock)] }

/-- The include loop over the sorted package (miner.cpp lines 627-631):
`AddToBlock(sortedEntries[i])`, then erase it from the overlay. -/
def includePackage (P : SelParams) (s : SelState) (sortedIds : List Nat) : SelState :=
  sortedIds.foldl
    (fun st id =>
      let st1 := addToBlockStep P st id
      { st1 with mapModifiedTx := eraseMod st1.mapModifiedTx id })
    s

/-- One descendant visit inside `UpdatePackagesForAdded` (miner.cpp
lines 457-472): skip descendants in `alreadyAdded`; otherwise count the
update and either modify the existing shadow record or insert a fresh
one reduced by the included ancestor's contribution. -/
def upfaStep (P : SelParams) (alreadyAdded : List Nat) (itId : Nat)
    (acc : List ModEntry × Nat) (d : Nat) : List ModEntry × Nat :=
  if d ∈ alreadyAdded then acc
  else
    let ov := acc.1
    let c := acc.2 + 1
    if overlayMem ov d then
      (ov.map (fun m => if m.id = d then updateForParentInclusion P itId m else m), c)
    else
      (ov ++ [updateForParentInclusion P itId (modEntryOf P d)], c)

/-- The descendant walk of one included transaction
(`CalculateDescendants` then the visit loop). -/
def upfaOne (P : SelParams) (alreadyAdded : List Nat) (itId : Nat)
    (acc : List ModEntry × Nat) : List ModEntry × Nat :=
  (P.desc itId).foldl (upfaStep P alreadyAdded itId) acc

/-- Embedding of `UpdatePackagesForAdded` (miner.cpp lines 446-475):
returns the new overlay and the number of updated descendants. -/
def updatePackagesForAdded (P : SelParams) (alreadyAdded : List Nat)
    (ov : List ModEntry) : List ModEntry × Nat :=
  alreadyAdded.foldl (fun acc itId => upfaOne P alreadyAdded itId acc) (ov, 0)

/-- Outcome of one outer-loop iteration: the while condition failed,
the fee-rate early `return` fired, the consecutive-failure `break`
fired, or the loop continues with a new state. -/
inductive StepRes
  | exitLoop (s : SelState)
  | ret (s : SelState)
  | brk (s : SelState)
  | cont (s : SelState)

/-- One full iteration of the `addPackageTxs` while loop (miner.cpp
lines 517-637): candidate selection, the fee-rate early return, the
`TestPackage` fit test with failure bookkeeping and the
consecutive-failure break, ancestor package formation, the finality
test, and the include step with overlay maintenance. -/
def selStep (P : SelParams) (s : SelState) : StepRes :=
  match classify P s with
  | .exitLoop => .exitLoop s
  | .skip s' => .cont s'
  | .cand c s' =>
    if c.pkgFees < P.minFee c.pkgSize then .ret s'
    else if ¬ testPackage s'.nBlockWeight P.nBlockMaxWeight s'.nBlockSigOpsCost
        P.dgpMaxBlockSigOps c.pkgSize c.pkgSigOps then
      let s2 :=
        if c.usingModified then
          { s' with mapModifiedTx := eraseMod s'.mapModifiedTx c.id
                    failedTx := setInsert s'.failedTx c.id }
        else s'
      let s3 := { s2 with nConsecutiveFailed := s2.nConsecutiveFailed + 1 }
      if s3.nConsecutiveFailed > 1000 ∧ s3.nBlockWeight > P.nBlockMaxWeight - 4000 then
        .brk s3
      else
        .cont s3
    else
      let pkg := packageOf P s' c.id
      if ¬ pkg.all (fun id => (P.ent id).isFinal) then
        let s2 :=
          if c.usingModified then
            { s' with mapModifiedTx := eraseMod s'.mapModifiedTx c.id
                      failedTx := setInsert s'.failedTx c.id }
          else s'
        .cont s2
      else
        let s2 := { s' with nConsecutiveFailed := 0 }
        let sortedIds := sortForBlock P pkg
        let s3 := includePackage P s2 sortedIds
        let s4 := { s3 with nPackagesSelected := s3.nPackagesSelected + 1 }
        let ovCnt := updatePackagesForAdded P pkg s4.mapModifiedTx
        .cont { s4 with
                mapModifiedTx := ovCnt.1
                nDescendantsUpdated := s4.nDescendantsUpdated + ovCnt.2 }

/-- The `addPackageTxs` while loop, fuel-indexed: `exitLoop`, `ret` and
`brk` all end the loop keeping the current state. -/
def addPackageTxsLoop (P : SelParams) : Nat → SelState → SelState
  | 0, s => s
  | fuel + 1, s =>
    match selStep P s with
    | .exitLoop s' => s'
    | .ret s' => s'
    | .brk s' => s'
    | .cont s' => addPackageTxsLoop P fuel s'

/-- The selection state at entry to `addPackageTxs`: `resetBlock` has
seeded weight 4000 and sigops 400, `CreateNewBlock` has pushed the
dummy coinbase sentinels, and the base cursor sits at the start of the
mempool's `ancestor_score_or_gas_price` index. -/
def initState (base : List Nat) : SelState :=
  { baseQueue := base, mapModifiedTx := [], failedTx := []
    nConsecutiveFailed := 0, inBlock := [], blockSeq := []
    nBlockWeight := 4000, nBlockSigOpsCost := 400, nBlockTx := 0, nFees := 0
    nPackagesSelected := 0, nDescendantsUpdated := 0
    vTxFees := [-1], vTxSigOpsCost := [-1], trace := [] }

/-- Modelled from the spec: the inclusion routine claimed for a
transaction — `AttemptToAddContractToBlock` when contracts are enabled
and the transaction carries contract-creation/call opcodes, else
`AddToBlock`.  Stated for comparison with what the source loop does. -/
def specClaimedMethod (contractsEnabled : Bool) (e : Entry) : IncMethod :=
  if contractsEnabled ∧ e.hasCreateOrCall then .attemptContract else .addToBlock

/-! ### UpdateTime (miner.cpp lines 62-77) -/

/-- The header fields `UpdateTime` touches.  `nTime` is modelled as an
integer (`int64_t` arithmetic in the source; `CBlockHeader` is outside
the given sources). -/
structure HeaderM where
  nTime : Int
  nBits : Nat
  deriving Repr, DecidableEq

/-- Embedding of `UpdateTime`: `nNewTime` is the maximum of
median-time-past plus one and the adjusted wall-clock time; the header
time is raised to it only when strictly larger than the old time; on
networks allowing min-difficulty blocks `nBits` is recomputed
(`GetNextWorkRequired` is an external collaborator); the return value
is `nNewTime - nOldTime`. -/
def updateTime (medianTimePast adjustedTime : Int)
    (fPowAllowMinDifficultyBlocks : Bool) (getNextWorkRequired : HeaderM → Nat)
    (pblock : HeaderM) : Int × HeaderM :=
  let nOldTime := pblock.nTime
  let nNewTime := max (medianTimePast + 1) adjustedTime
  let pblock1 := if nOldTime < nNewTime then { pblock with nTime := nNewTime } else pblock
  let pblock2 :=
    if fPowAllowMinDifficultyBlocks then
      { pblock1 with nBits := getNextWorkRequired pblock1 }
    else pblock1
  (nNewTime - nOldTime, pblock2)

/-! ### updateMinerParams (miner.cpp lines 38-60) -/

/-- The compile-time constants from `node/miner.h` that seed the
mutable miner parameters (their concrete values are outside the given
sources, so the model is parametric in them). -/
structure MinerConsts where
  maxStakeLookahead : Nat
  bytecodeTimeBuffer : Nat
  stakeTimeBuffer : Nat
  stakerPollingPeriod : Nat
  stakerWaitForWalidBlock : Nat
  stakerWaitForBestBlockHeader : Nat
  stakerPollingPeriodMinDifficulty : Nat
  deriving Repr, DecidableEq

/-- The mutable globals of miner.cpp lines 31-36 plus the
function-static cache `timeDownscale` (line 40). -/
structure MinerParamsState where
  timeDownscale : Nat
  nMaxStakeLookahead : Nat
  nBytecodeTimeBuffer : Nat
  nStakeTimeBuffer : Nat
  nMinerSleep : Nat
  nMinerWaitWalidBlock : Nat
  nMinerWaitBestBlockHeader : Nat
  deriving Repr, DecidableEq

/-- The initial values of the miner-parameter globals (miner.cpp lines
31-36) and of the static `timeDownscale` (line 40). -/
def initMinerParamsState (C : MinerConsts) : MinerParamsState :=
  { timeDownscale := 1
    nMaxStakeLookahead := C.maxStakeLookahead
    nBytecodeTimeBuffer := C.bytecodeTimeBuffer
    nStakeTimeBuffer := C.stakeTimeBuffer
    nMinerSleep := C.stakerPollingPeriod
    nMinerWaitWalidBlock := C.stakerWaitForWalidBlock
    nMinerWaitBestBlockHeader := C.stakerWaitForBestBlockHeader }

/-- Embedding of `updateMinerParams`.  `timeDownscaleTmp` is
`consensusParams.TimestampDownscaleFactor(nHeight)` and `targetSpacing`
is `consensusParams.TargetSpacing(nHeight)` (external).  When the
cached downscale changes, the derived constants are recomputed as
`max(original / downscale, 1)`, with `nMaxStakeLookahead` further
clamped by the target spacing; minimum-difficulty mode overrides
`nMinerSleep`. -/
def updateMinerParams (C : MinerConsts) (timeDownscaleTmp targetSpacing : Nat)
    (minDifficulty : Bool) (s : MinerParamsState) : MinerParamsState :=
  let timeDefault := 1
  let s1 :=
    if s.timeDownscale ≠ timeDownscaleTmp then
      { s with
        timeDownscale := timeDownscaleTmp
        nMaxStakeLookahead :=
          min (max (C.maxStakeLookahead / timeDownscaleTmp) timeDefault) targetSpacing
        nBytecodeTimeBuffer := max (C.bytecodeTimeBuffer / timeDownscaleTmp) timeDefault
        nStakeTimeBuffer := max (C.stakeTimeBuffer / timeDownscaleTmp) timeDefault
        nMinerSleep := max (C.stakerPollingPeriod / timeDownscaleTmp) timeDefault
        nMinerWaitWalidBlock :=
          max (C.stakerWaitForWalidBlock / timeDownscaleTmp) timeDefault }
    else s
  if minDifficulty ∧ s1.nMinerSleep ≠ C.stakerPollingPeriodMinDifficulty then
    { s1 with nMinerSleep := C.stakerPollingPeriodMinDifficulty }
  else s1

/-- A sequence of `updateMinerParams` calls, each with its own
downscale factor, target spacing and min-difficulty flag. -/
def runMinerParamsCalls (C : MinerConsts) (calls : List (Nat × Nat × Bool))
    (s : MinerParamsState) : MinerParamsState :=
  calls.foldl (fun st a => updateMinerParams C a.1 a.2.1 a.2.2 st) s

/-! ### Well-formedness of the abstract mempool and the selection invariant -/

/-- The default output used with `List.getD` on output lists. -/
def defaultTxOut : TxOutM := { nValue := 0, scriptPubKey := 0 }

/-- Well-formedness of the abstract mempool collaborators, as the real
mempool guarantees them: the in-mempool ancestor relation is
transitively closed, ancestor counts grow strictly along it (a
transaction counts itself and all its ancestors), `CalculateDescendants`
only returns the transaction itself and transactions having it as an
ancestor, and ancestor lists are duplicate-free. -/
def WFMempool (P : SelParams) : Prop :=
  (∀ t a, a ∈ P.anc t → ∀ b ∈ P.anc a, b ∈ P.anc t) ∧
  (∀ t a, a ∈ P.anc t → (P.ent a).acnt < (P.ent t).acnt) ∧
  (∀ t d, d ∈ P.desc t → t ∈ P.anc d ∨ d = t) ∧
  (∀ t, (P.anc t).Nodup)

/-- The block sequence is duplicate-free and every in-mempool ancestor
of an included transaction is included at a strictly earlier
position. -/
def blockTopoOk (P : SelParams) (l : List Nat) : Prop :=
  l.Nodup ∧
  ∀ t ∈ l, ∀ a ∈ P.anc t, a ∈ l ∧ l.indexOf a < l.indexOf t

/-- The selection-loop invariant: the block sequence is topologically
ordered, the `inBlock` set and the block sequence agree, and the
overlay never holds an already-included transaction. -/
def SelInv (P : SelParams) (s : SelState) : Prop :=
  blockTopoOk P s.blockSeq ∧
  (∀ id, id ∈ s.inBlock ↔ id ∈ s.blockSeq) ∧
  (∀ m ∈ s.mapModifiedTx, m.id ∉ s.inBlock) ∧
  s.inBlock.Nodup

/-! ### Concrete fixtures used by witness theorems -/

/-- A concrete contract environment for witness runs. -/
def cEnvW : ContractEnv :=
  { nTimeLimit := 0, nBytecodeTimeBuffer := 6, disableContractStaking := false
    txGasLimit := 100, softBlockGasLimit := 1000
    dgpMaxBlockSigOps := 100000, dgpMaxBlockWeight := 1000000
    isProofOfStake := false, subsidy := 50
    originalRewardTx := { vin := [0], vout := [{ nValue := 50, scriptPubKey := 1 }] }
    legacySigOpCount := fun _ => 0, txWeightOf := fun _ => 0 }

/-- The same environment with contract staking disabled by the
operator flag. -/
def cEnvWOff : ContractEnv := { cEnvW with disableContractStaking := true }

/-- A concrete VM oracle: one extracted sub-transaction, successful
execution that moves the global roots. -/
def cOracleW : VMOracle :=
  { now := 0, extraction := some [{ gas := 10, gasPrice := 5 }]
    execStateRoot := 77, execUtxoRoot := 88
    performOk := true, processOk := true
    execResult := { usedGas := 10, refundSender := 2
                    refundOutputs := [{ nValue := 2, scriptPubKey := 9 }]
                    valueTransfers := [] } }

/-- A concrete contract-bearing mempool entry. -/
def cIterW : CEntry :=
  { id := 3, tx := { vin := [4], vout := [{ nValue := 1, scriptPubKey := 2 }] }
    txWeight := 100, sigOpCost := 1, fee := 7 }

/-- A concrete assembler state: fresh template with the seeded
coinbase. -/
def cStateW : CState :=
  { stateRoot := 11, utxoRoot := 22
    nBlockWeight := 4000, nBlockSigOpsCost := 400, nBlockTx := 0, nFees := 0
    inBlock := [], blockVtx := [{ vin := [0], vout := [{ nValue := 50, scriptPubKey := 1 }] }]
    vTxFees := [-1], vTxSigOpsCost := [-1]
    bceUsedGas := 0, bceRefundSender := 0, bceRefundOutputs := [], bceValueTransfers := [] }

/-- A concrete selection environment for witness runs: one-entry
mempool shapes, comparator by modified ancestor fees, prohibitive
minimum fee rate (for the early-exit witness). -/
def selParamsW : SelParams :=
  { ent := fun id =>
      { id := id, sizeWithAncestors := 10, modFeesWithAncestors := 10
        sigOpCostWithAncestors := 1, txWeight := 100, sigOpCost := 1, fee := 10
        txSize := 10, modifiedFee := 10, acnt := 1
        hasCreateOrCall := false, isFinal := true }
    anc := fun _ => []
    desc := fun t => [t]
    cmp := fun a b => decide (b.nModFeesWithAncestors < a.nModFeesWithAncestors)
    minFee := fun _ => 1000
    nBlockMaxWeight := 100000
    dgpMaxBlockSigOps := 80000 }

/-- A selection environment where the single candidate fails the fit
test while the block is close to full. -/
def selParamsBrk : SelParams :=
  { selParamsW with
    minFee := fun _ => 0
    nBlockMaxWeight := 8000
    ent := fun id => { selParamsW.ent id with sizeWithAncestors := 10000 } }

/-- A selection state close to full with 1000 consecutive failures
already recorded. -/
def selStateBrk : SelState :=
  { initState [1] with nBlockWeight := 7000, nConsecutiveFailed := 1000 }

/-- A selection environment whose single mempool entry carries
contract-creation/call opcodes and passes every inclusion test. -/
def selParamsC4 : SelParams :=
  { selParamsW with
    minFee := fun _ => 0
    ent := fun id => { selParamsW.ent id with hasCreateOrCall := true } }

/-- A two-transaction mempool where transaction 2 has transaction 1 as
its unconfirmed ancestor, with the base stream presenting the child
first. -/
def selParamsC2 : SelParams :=
  { ent := fun id =>
      { id := id, sizeWithAncestors := 10, modFeesWithAncestors := 10
        sigOpCostWithAncestors := 1, txWeight := 100, sigOpCost := 1, fee := 10
        txSize := 10, modifiedFee := 10, acnt := if id = 2 then 2 else 1
        hasCreateOrCall := false, isFinal := true }
    anc := fun t => if t = 2 then [1] else []
    desc := fun t => if t = 1 then [1, 2] else if t = 2 then [2] else []
    cmp := fun a b => decide (b.nModFeesWithAncestors < a.nModFeesWithAncestors)
    minFee := fun _ => 0
    nBlockMaxWeight := 100000
    dgpMaxBlockSigOps := 80000 }

/-! ## Theorems -/

theorem setValAt_length (l : List TxOutM) (i : Nat) (v : Int) :
    (setValAt l i v).length = l.length := by
  induction l generalizing i with
  | nil => rfl
  | cons o t ih => cases i <;> simp [setValAt, ih]

theorem setValAt_getD_self (l : List TxOutM) (i : Nat) (v : Int) (d : TxOutM)
    (h : i < l.length) : ((setValAt l i v).getD i d).nValue = v := by
  induction l generalizing i with
  | nil => simp at h
  | cons o t ih =>
    cases i with
    | zero => simp [setValAt]
    | succ n => simpa [setValAt] using ih n (by simpa using h)

theorem setValAt_getD_ne (l : List TxOutM) (i j : Nat) (v : Int) (d : TxOutM)
    (h : j ≠ i) : (setValAt l i v).getD j d = l.getD j d := by
  induction l generalizing i j with
  | nil => simp [setValAt]
  | cons o t ih =>
    cases i with
    | zero =>
      cases j with
      | zero => exact absurd rfl h
      | succ n => simp [setValAt]
    | succ m =>
      cases j with
      | zero => simp [setValAt]
      | succ n => simpa [setValAt] using ih m n (by omega)

/-- C3: `TestPackage(packageSize, packageSigOpsCost)` returns true if
and only if `nBlockWeight + WITNESS_SCALE_FACTOR * packageSize <
nBlockMaxWeight` and `nBlockSigOpsCost + packageSigOpsCost <
dgpMaxBlockSigOps`, both comparisons strict: a package exactly filling
either budget is rejected. -/
theorem testPackage_iff (w maxW sg maxSg size cost : Nat) :
    testPackage w maxW sg maxSg size cost = true ↔
      w + WITNESS_SCALE_FACTOR * size < maxW ∧ sg + cost < maxSg := by
  unfold testPackage
  split_ifs with h1 h2 <;> simp <;> omega

/-- C5: after `RebuildRefundTransaction`, the reward transaction (index
0 for PoW, 1 for PoS) has value `subsidy + nFees - refundSender` at the
reward output index; its output list is the original reward outputs
(with only the reward-index value overwritten) followed by the
accumulated refund outputs verbatim in order; its inputs are preserved
and the other transactions of the block are untouched. -/
theorem rebuildRefundTransaction_spec (orig : TxM) (isPoS : Bool)
    (nFees subsidy refundSender : Int) (refundOutputs : List TxOutM) (vtx : List TxM)
    (hIdx : (if isPoS then 1 else 0) < orig.vout.length)
    (hVtx : (if isPoS then 1 else 0) < vtx.length) :
    let rIdx : Nat := if isPoS then 1 else 0
    let result := rebuildRefundTransaction orig isPoS nFees subsidy refundSender refundOutputs vtx
    let newTx := result.getD rIdx defaultTx
    ((newTx.vout.getD rIdx defaultTxOut).nValue = subsidy + nFees - refundSender) ∧
    (newTx.vout = setValAt orig.vout rIdx (nFees + subsidy - refundSender) ++ refundOutputs) ∧
    (newTx.vin = orig.vin) ∧
    (∀ j, j ≠ rIdx → result.getD j defaultTx = vtx.getD j defaultTx) ∧
    (∀ j, j < orig.vout.length → j ≠ rIdx →
      newTx.vout.getD j defaultTxOut = orig.vout.getD j defaultTxOut) ∧
    (newTx.vout.drop orig.vout.length = refundOutputs) ∧
    result.length = vtx.length := by
  intro rIdx result newTx
  have hlen : (setValAt orig.vout rIdx (nFees + subsidy - refundSender)).length
      = orig.vout.length := setValAt_length _ _ _
  have hres : result = vtx.set rIdx
      { orig with vout := setValAt orig.vout rIdx (nFees + subsidy - refundSender)
                  ++ refundOutputs } := rfl
  have hgetset : newTx = { orig with
      vout := setValAt orig.vout rIdx (nFees + subsidy - refundSender) ++ refundOutputs } := by
    show result.getD rIdx defaultTx = _
    rw [hres, List.getD_eq_getElem _ _ (by simpa using hVtx)]
    exact List.getElem_set_self _
  refine ⟨?_, ?_, ?_, ?_, ?_, ?_, ?_⟩
  · rw [hgetset]
    show ((setValAt orig.vout rIdx (nFees + subsidy - refundSender)
        ++ refundOutputs).getD rIdx defaultTxOut).nValue = _
    rw [List.getD_append _ _ _ _ (by omega)]
    rw [setValAt_getD_self _ _ _ _ hIdx]
    ring
  · rw [hgetset]
  · rw [hgetset]
  · intro j hj
    rw [hres]
    by_cases hlt : j < vtx.length
    · rw [List.getD_eq_getElem _ _ (by simpa using hlt),
        List.getD_eq_getElem _ _ hlt]
      exact List.getElem_set_ne (by omega) _
    · rw [List.getD_eq_default _ _ (by simp; omega),
        List.getD_eq_default _ _ (by omega)]
  · intro j hjlt hjne
    rw [hgetset]
    show (setValAt orig.vout rIdx (nFees + subsidy - refundSender)
        ++ refundOutputs).getD j defaultTxOut = _
    rw [List.getD_append _ _ _ _ (by omega)]
    exact setValAt_getD_ne _ _ _ _ _ hjne
  · rw [hgetset]
    show (setValAt orig.vout rIdx (nFees + subsidy - refundSender)
        ++ refundOutputs).drop orig.vout.length = refundOutputs
    rw [← hlen, List.drop_left]
  · rw [hres]; simp

/-- Witness for C5: a concrete PoW rebuild with a two-output original
reward transaction and one refund output. -/
theorem rebuildRefundTransaction_spec_witness :
    let orig : TxM := { vin := [7], vout := [{ nValue := 0, scriptPubKey := 1 },
                                             { nValue := 9, scriptPubKey := 2 }] }
    let refundOutputs : List TxOutM := [{ nValue := 3, scriptPubKey := 4 }]
    let vtx : List TxM := [{ vin := [], vout := [{ nValue := 0, scriptPubKey := 1 },
                                                 { nValue := 9, scriptPubKey := 2 }] },
                           { vin := [5], vout := [] }]
    let rIdx : Nat := if false then 1 else 0
    let result := rebuildRefundTransaction orig false 10 50 2 refundOutputs vtx
    let newTx := result.getD rIdx defaultTx
    ((newTx.vout.getD rIdx defaultTxOut).nValue = 50 + 10 - 2) ∧
    (newTx.vout = setValAt orig.vout rIdx (10 + 50 - 2) ++ refundOutputs) ∧
    (newTx.vin = orig.vin) ∧
    (∀ j, j ≠ rIdx → result.getD j defaultTx = vtx.getD j defaultTx) ∧
    (∀ j, j < orig.vout.length → j ≠ rIdx →
      newTx.vout.getD j defaultTxOut = orig.vout.getD j defaultTxOut) ∧
    (newTx.vout.drop orig.vout.length = refundOutputs) ∧
    result.length = vtx.length :=
  rebuildRefundTransaction_spec
    { vin := [7], vout := [{ nValue := 0, scriptPubKey := 1 },
                           { nValue := 9, scriptPubKey := 2 }] }
    false 10 50 2 [{ nValue := 3, scriptPubKey := 4 }]
    [{ vin := [], vout := [{ nValue := 0, scriptPubKey := 1 },
                           { nValue := 9, scriptPubKey := 2 }] },
     { vin := [5], vout := [] }]
    (by decide) (by decide)

theorem gasPrecheck_sound (tgl sbl used mgp : Nat) (l : List QTx) :
    ∀ acc : Nat, gasPrecheck tgl sbl used mgp acc l = true →
      ∀ q ∈ l, mgp ≤ q.gasPrice ∧ acc + q.gas ≤ tgl := by
  induction l with
  | nil => intro acc _ q hq; simp at hq
  | cons x rest ih =>
    intro acc h q hq
    simp only [gasPrecheck] at h
    split_ifs at h with h1 h2 h3
    rcases List.mem_cons.mp hq with hqx | hqr
    · subst hqx
      exact ⟨by omega, by omega⟩
    · have := ih (acc + x.gas) h q hqr
      exact ⟨this.1, by omega⟩

/-- C1: a refused contract attempt is atomic — whenever
`AttemptToAddContractToBlock` returns false, the state after the call
(global contract-state roots, weight/sigops/tx/fee accumulators, the
`inBlock` set, the block transaction list, the template fee/sigops
vectors and the accumulated `bceResult`) is exactly the state at
entry. -/
theorem attemptToAddContractToBlock_atomic (env : ContractEnv) (o : VMOracle)
    (iter : CEntry) (minGasPrice : Nat) (s : CState)
    (h : (attemptToAddContractToBlock env o iter minGasPrice s).1 = false) :
    (attemptToAddContractToBlock env o iter minGasPrice s).2 = s := by
  unfold attemptToAddContractToBlock at h ⊢
  cases hx : o.extraction <;>
    simp only [hx] at h ⊢ <;>
    split_ifs at h ⊢ <;>
    first
      | rfl
      | exact Bool.noConfusion h

/-- Witness for C1: with the operator flag `-disablecontractstaking`
set, the call refuses and leaves the concrete state untouched. -/
theorem attemptToAddContractToBlock_atomic_witness :
    (attemptToAddContractToBlock cEnvWOff cOracleW cIterW 1 cStateW).1 = false ∧
    (attemptToAddContractToBlock cEnvWOff cOracleW cIterW 1 cStateW).2 = cStateW :=
  ⟨by decide, attemptToAddContractToBlock_atomic cEnvWOff cOracleW cIterW 1 cStateW (by decide)⟩

/-- C7: after every successful `AttemptToAddContractToBlock` the
accumulated `bceResult.usedGas` is at most `softBlockGasLimit`, and
success implies every extracted contract sub-transaction had gas price
at least `minGasPrice` and gas at most `txGasLimit`. -/
theorem commitContract_bceUsedGas (env : ContractEnv) (res : ExecResultM)
    (iter : CEntry) (sx : CState) :
    (commitContract env res iter sx).bceUsedGas = sx.bceUsedGas + res.usedGas := rfl

theorem attemptToAddContractToBlock_gasLimits (env : ContractEnv) (o : VMOracle)
    (iter : CEntry) (minGasPrice : Nat) (s : CState)
    (h : (attemptToAddContractToBlock env o iter minGasPrice s).1 = true) :
    (attemptToAddContractToBlock env o iter minGasPrice s).2.bceUsedGas
      ≤ env.softBlockGasLimit ∧
    ∀ qs, o.extraction = some qs →
      ∀ q ∈ qs, minGasPrice ≤ q.gasPrice ∧ q.gas ≤ env.txGasLimit := by
  unfold attemptToAddContractToBlock at h ⊢
  cases hx : o.extraction with
  | none => simp only [hx] at h; split_ifs at h <;> exact Bool.noConfusion h
  | some qs =>
    simp only [hx] at h ⊢
    split_ifs at h ⊢ with h1 h2 h3 h4 h5 h6 <;>
      first
        | exact Bool.noConfusion h
        | (refine ⟨?_, ?_⟩
           · rw [commitContract_bceUsedGas]
             show s.bceUsedGas + o.execResult.usedGas ≤ env.softBlockGasLimit
             omega
           · intro qs' hqs'
             obtain rfl : qs = qs' := by injection hqs'
             intro q hq
             have hsound := gasPrecheck_sound env.txGasLimit env.softBlockGasLimit
               s.bceUsedGas minGasPrice qs 0 h3 q hq
             exact ⟨hsound.1, by omega⟩)

/-- Witness for C7: a concrete successful contract inclusion. -/
theorem attemptToAddContractToBlock_gasLimits_witness :
    (attemptToAddContractToBlock cEnvW cOracleW cIterW 1 cStateW).1 = true ∧
    ((attemptToAddContractToBlock cEnvW cOracleW cIterW 1 cStateW).2.bceUsedGas
      ≤ cEnvW.softBlockGasLimit ∧
    ∀ qs, cOracleW.extraction = some qs →
      ∀ q ∈ qs, 1 ≤ q.gasPrice ∧ q.gas ≤ cEnvW.txGasLimit) :=
  ⟨by decide, attemptToAddContractToBlock_gasLimits cEnvW cOracleW cIterW 1 cStateW (by decide)⟩

/-- C9: `UpdateTime` never decreases the header time; the time changes
only when `max(median-time-past + 1, adjusted time)` strictly exceeds
the old value, and is then set to exactly that maximum; the return
value is that maximum minus the old time. -/
theorem updateTime_spec (mtp adj : Int) (minDiff : Bool) (gnwr : HeaderM → Nat)
    (pblock : HeaderM) :
    pblock.nTime ≤ (updateTime mtp adj minDiff gnwr pblock).2.nTime ∧
    (max (mtp + 1) adj ≤ pblock.nTime →
      (updateTime mtp adj minDiff gnwr pblock).2.nTime = pblock.nTime) ∧
    (pblock.nTime < max (mtp + 1) adj →
      (updateTime mtp adj minDiff gnwr pblock).2.nTime = max (mtp + 1) adj) ∧
    (updateTime mtp adj minDiff gnwr pblock).1 = max (mtp + 1) adj - pblock.nTime := by
  unfold updateTime
  by_cases hlt : pblock.nTime < max (mtp + 1) adj <;>
    by_cases hm : minDiff = true <;>
      simp [hlt, hm] <;> omega

/-- Witness for C9: a header at time 80 with the maximum of
median-time-past + 1 and adjusted time equal to 95. -/
theorem updateTime_spec_witness :
    ({ nTime := 80, nBits := 7 } : HeaderM).nTime
      ≤ (updateTime 90 95 false (fun _ => 0) { nTime := 80, nBits := 7 }).2.nTime ∧
    (max (90 + 1) 95 ≤ ({ nTime := 80, nBits := 7 } : HeaderM).nTime →
      (updateTime 90 95 false (fun _ => 0) { nTime := 80, nBits := 7 }).2.nTime
        = ({ nTime := 80, nBits := 7 } : HeaderM).nTime) ∧
    (({ nTime := 80, nBits := 7 } : HeaderM).nTime < max (90 + 1) 95 →
      (updateTime 90 95 false (fun _ => 0) { nTime := 80, nBits := 7 }).2.nTime
        = max (90 + 1) 95) ∧
    (updateTime 90 95 false (fun _ => 0) { nTime := 80, nBits := 7 }).1
      = max (90 + 1) 95 - ({ nTime := 80, nBits := 7 } : HeaderM).nTime :=
  updateTime_spec 90 95 false (fun _ => 0) { nTime := 80, nBits := 7 }

theorem updateMinerParams_frame (C : MinerConsts) (tmp sp : Nat) (md : Bool)
    (s : MinerParamsState) :
    (updateMinerParams C tmp sp md s).nMinerWaitBestBlockHeader
      = s.nMinerWaitBestBlockHeader := by
  unfold updateMinerParams
  dsimp only
  split_ifs <;> rfl

theorem runMinerParamsCalls_frame (C : MinerConsts) (calls : List (Nat × Nat × Bool)) :
    ∀ s : MinerParamsState,
      (runMinerParamsCalls C calls s).nMinerWaitBestBlockHeader
        = s.nMinerWaitBestBlockHeader := by
  induction calls with
  | nil => intro s; rfl
  | cons a rest ih =>
    intro s
    show (runMinerParamsCalls C rest
      (updateMinerParams C a.1 a.2.1 a.2.2 s)).nMinerWaitBestBlockHeader = _
    rw [ih, updateMinerParams_frame]

/-- C10: `updateMinerParams` never modifies `nMinerWaitBestBlockHeader`:
a single call preserves it, and after any sequence of calls starting
from the initial globals it still equals
`STAKER_WAIT_FOR_BEST_BLOCK_HEADER`. -/
theorem updateMinerParams_waitBestBlockHeader (C : MinerConsts)
    (calls : List (Nat × Nat × Bool)) (tmp sp : Nat) (md : Bool)
    (s : MinerParamsState) :
    (updateMinerParams C tmp sp md s).nMinerWaitBestBlockHeader
      = s.nMinerWaitBestBlockHeader ∧
    (runMinerParamsCalls C calls (initMinerParamsState C)).nMinerWaitBestBlockHeader
      = C.stakerWaitForBestBlockHeader :=
  ⟨updateMinerParams_frame C tmp sp md s,
   by rw [runMinerParamsCalls_frame]; rfl⟩

theorem classify_frame (P : SelParams) (s : SelState) (c : Cand) (s' : SelState)
    (h : classify P s = .cand c s') :
    s'.mapModifiedTx = s.mapModifiedTx ∧ s'.failedTx = s.failedTx ∧
    s'.nConsecutiveFailed = s.nConsecutiveFailed ∧ s'.inBlock = s.inBlock ∧
    s'.blockSeq = s.blockSeq ∧ s'.nBlockWeight = s.nBlockWeight ∧
    s'.nBlockSigOpsCost = s.nBlockSigOpsCost ∧
    s'.nPackagesSelected = s.nPackagesSelected ∧ s'.trace = s.trace := by
  unfold classify at h
  cases hb : s.baseQueue with
  | nil =>
    rw [hb] at h
    cases hm : bestMod P.cmp s.mapModifiedTx <;> rw [hm] at h
    · exact Phase.noConfusion h
    · injection h with _ h2
      subst h2
      exact ⟨rfl, rfl, rfl, rfl, rfl, rfl, rfl, rfl, rfl⟩
  | cons hd tl =>
    rw [hb] at h
    dsimp only at h
    by_cases hskip : overlayMem s.mapModifiedTx hd = true ∨ hd ∈ s.inBlock ∨ hd ∈ s.failedTx
    · rw [if_pos hskip] at h
      exact Phase.noConfusion h
    · rw [if_neg hskip] at h
      cases hm : bestMod P.cmp s.mapModifiedTx with
      | none =>
        rw [hm] at h
        injection h with _ h2
        subst h2
        exact ⟨rfl, rfl, rfl, rfl, rfl, rfl, rfl, rfl, rfl⟩
      | some m =>
        rw [hm] at h
        dsimp only at h
        by_cases hcmp : P.cmp m (modEntryOf P hd) = true
        · rw [if_pos hcmp] at h
          injection h with _ h2
          subst h2
          exact ⟨rfl, rfl, rfl, rfl, rfl, rfl, rfl, rfl, rfl⟩
        · rw [if_neg hcmp] at h
          injection h with _ h2
          subst h2
          exact ⟨rfl, rfl, rfl, rfl, rfl, rfl, rfl, rfl, rfl⟩

theorem foldl_pick_mem (cmp : ModEntry → ModEntry → Bool) :
    ∀ (rest : List ModEntry) (acc : ModEntry),
      rest.foldl (fun b y => if cmp y b then y else b) acc = acc ∨
      rest.foldl (fun b y => if cmp y b then y else b) acc ∈ rest := by
  intro rest
  induction rest with
  | nil => intro acc; exact Or.inl rfl
  | cons y ys ih =>
    intro acc
    show ys.foldl _ (if cmp y acc then y else acc) = acc ∨
      ys.foldl _ (if cmp y acc then y else acc) ∈ y :: ys
    rcases ih (if cmp y acc then y else acc) with h | h
    · rw [h]
      by_cases hc : cmp y acc = true
      · rw [if_pos hc]
        exact Or.inr (List.mem_cons_self _ _)
      · rw [if_neg hc]
        exact Or.inl rfl
    · exact Or.inr (List.mem_cons_of_mem _ h)

theorem bestMod_mem (cmp : ModEntry → ModEntry → Bool) (l : List ModEntry)
    (m : ModEntry) (h : bestMod cmp l = some m) : m ∈ l := by
  cases l with
  | nil => exact Option.noConfusion h
  | cons x rest =>
    have hm : rest.foldl (fun b y => if cmp y b then y else b) x = m := by
      injection h
    rcases foldl_pick_mem cmp rest x with h' | h'
    · rw [hm] at h'
      rw [← h']
      exact List.mem_cons_self _ _
    · rw [hm] at h'
      exact List.mem_cons_of_mem _ h'

theorem setInsert_mem (l : List Nat) (x y : Nat) :
    y ∈ setInsert l x ↔ y ∈ l ∨ y = x := by
  unfold setInsert
  split_ifs with h
  · exact ⟨Or.inl, fun h' => h'.elim id (fun he => he ▸ h)⟩
  · rw [List.mem_cons]
    tauto

theorem setInsert_nodup (l : List Nat) (x : Nat) (h : l.Nodup) :
    (setInsert l x).Nodup := by
  unfold setInsert
  split_ifs with hx
  · exact h
  · exact List.nodup_cons.mpr ⟨hx, h⟩

theorem eraseMod_mem (ov : List ModEntry) (id : Nat) (m : ModEntry) :
    m ∈ eraseMod ov id ↔ m ∈ ov ∧ m.id ≠ id := by
  unfold eraseMod
  simp [List.mem_filter]

theorem overlayMem_iff (ov : List ModEntry) (id : Nat) :
    overlayMem ov id = true ↔ ∃ m ∈ ov, m.id = id := by
  unfold overlayMem
  simp [List.any_eq_true]

theorem includePackage_spec (P : SelParams) (ids : List Nat) :
    ∀ s : SelState,
      (includePackage P s ids).blockSeq = s.blockSeq ++ ids ∧
      (includePackage P s ids).trace
        = s.trace ++ ids.map (fun id => (id, IncMethod.addToBlock)) ∧
      (∀ x, x ∈ (includePackage P s ids).inBlock ↔ x ∈ s.inBlock ∨ x ∈ ids) ∧
      (∀ m, m ∈ (includePackage P s ids).mapModifiedTx ↔
        m ∈ s.mapModifiedTx ∧ m.id ∉ ids) ∧
      (includePackage P s ids).nPackagesSelected = s.nPackagesSelected ∧
      (includePackage P s ids).failedTx = s.failedTx ∧
      (includePackage P s ids).nConsecutiveFailed = s.nConsecutiveFailed ∧
      (s.inBlock.Nodup → (includePackage P s ids).inBlock.Nodup) := by
  induction ids with
  | nil =>
    intro s
    refine ⟨by simp [includePackage], by simp [includePackage], ?_, ?_, rfl, rfl, rfl, ?_⟩
    · intro x; simp [includePackage]
    · intro m; simp [includePackage]
    · intro h; exact h
  | cons id rest ih =>
    intro s
    have hstep : includePackage P s (id :: rest)
        = includePackage P
            { addToBlockStep P s id with
              mapModifiedTx := eraseMod (addToBlockStep P s id).mapModifiedTx id }
            rest := rfl
    rw [hstep]
    obtain ⟨h1, h2, h3, h4, h5, h6, h7, h8⟩ :=
      ih { addToBlockStep P s id with
           mapModifiedTx := eraseMod (addToBlockStep P s id).mapModifiedTx id }
    refine ⟨?_, ?_, ?_, ?_, ?_, ?_, ?_, ?_⟩
    · rw [h1]; simp [addToBlockStep]
    · rw [h2]; simp [addToBlockStep]
    · intro x
      rw [h3 x]
      show x ∈ setInsert s.inBlock id ∨ x ∈ rest ↔ _
      rw [setInsert_mem]
      simp [List.mem_cons]
      tauto
    · intro m
      rw [h4 m]
      show m ∈ eraseMod s.mapModifiedTx id ∧ m.id ∉ rest ↔ _
      rw [eraseMod_mem]
      simp [List.mem_cons]
      tauto
    · rw [h5]; rfl
    · rw [h6]; rfl
    · rw [h7]; rfl
    · intro hnd
      apply h8
      show (setInsert s.inBlock id).Nodup
      exact setInsert_nodup _ _ hnd

/-- C6: whenever the candidate package's fees are below
`blockMinFeeRate.GetFee(packageSize)`, the selection loop returns
immediately: no further transaction is appended, nothing is added to
`failedTx`, the overlay is untouched and no further package is
selected in that build. -/
theorem addPackageTxs_feeRate_earlyExit (P : SelParams) (fuel : Nat) (s : SelState)
    (c : Cand) (s' : SelState)
    (hc : classify P s = .cand c s')
    (hfee : c.pkgFees < P.minFee c.pkgSize) :
    (addPackageTxsLoop P (fuel + 1) s).blockSeq = s.blockSeq ∧
    (addPackageTxsLoop P (fuel + 1) s).trace = s.trace ∧
    (addPackageTxsLoop P (fuel + 1) s).failedTx = s.failedTx ∧
    (addPackageTxsLoop P (fuel + 1) s).mapModifiedTx = s.mapModifiedTx ∧
    (addPackageTxsLoop P (fuel + 1) s).nPackagesSelected = s.nPackagesSelected := by
  have hstep : selStep P s = .ret s' := by
    unfold selStep
    rw [hc]
    dsimp only
    rw [if_pos hfee]
  have hloop : addPackageTxsLoop P (fuel + 1) s = s' := by
    show (match selStep P s with
          | .exitLoop s1 => s1
          | .ret s1 => s1
          | .brk s1 => s1
          | .cont s1 => addPackageTxsLoop P fuel s1) = s'
    rw [hstep]
  obtain ⟨hm, hf, _, _, hb, _, _, hp, ht⟩ := classify_frame P s c s' hc
  rw [hloop]
  exact ⟨hb, ht, hf, hm, hp⟩

/-- Witness for C6: a single candidate whose package fees (10) are
below the minimum fee for its size (1000); the loop returns with
nothing changed. -/
theorem addPackageTxs_feeRate_earlyExit_witness :
    (addPackageTxsLoop selParamsW 4 (initState [1])).blockSeq = (initState [1]).blockSeq ∧
    (addPackageTxsLoop selParamsW 4 (initState [1])).trace = (initState [1]).trace ∧
    (addPackageTxsLoop selParamsW 4 (initState [1])).failedTx = (initState [1]).failedTx ∧
    (addPackageTxsLoop selParamsW 4 (initState [1])).mapModifiedTx
      = (initState [1]).mapModifiedTx ∧
    (addPackageTxsLoop selParamsW 4 (initState [1])).nPackagesSelected
      = (initState [1]).nPackagesSelected :=
  addPackageTxs_feeRate_earlyExit selParamsW 3 (initState [1])
    (baseCand selParamsW 1) (initState []) rfl (by decide)

/-- C8: the selection loop breaks out (keeping the partially filled
block) exactly when a fit-test failure raises the consecutive-failure
counter strictly above 1000 while the block weight exceeds
`nBlockMaxWeight - 4000`; and a package that passes the fee, fit and
finality tests is included with the consecutive-failure counter reset
to 0. -/
theorem addPackageTxs_termination_heuristic (P : SelParams) (s : SelState) :
    ((∃ sb, selStep P s = .brk sb) ↔
      (∃ c s', classify P s = .cand c s' ∧
        ¬ c.pkgFees < P.minFee c.pkgSize ∧
        testPackage s'.nBlockWeight P.nBlockMaxWeight s'.nBlockSigOpsCost
          P.dgpMaxBlockSigOps c.pkgSize c.pkgSigOps = false ∧
        1000 < s'.nConsecutiveFailed + 1 ∧
        P.nBlockMaxWeight - 4000 < s'.nBlockWeight)) ∧
    (∀ sb, selStep P s = .brk sb → sb.blockSeq = s.blockSeq) ∧
    (∀ c s', classify P s = .cand c s' →
      ¬ c.pkgFees < P.minFee c.pkgSize →
      testPackage s'.nBlockWeight P.nBlockMaxWeight s'.nBlockSigOpsCost
        P.dgpMaxBlockSigOps c.pkgSize c.pkgSigOps = true →
      (packageOf P s' c.id).all (fun id => (P.ent id).isFinal) = true →
      ∃ s2, selStep P s = .cont s2 ∧ s2.nConsecutiveFailed = 0) := by
  refine ⟨⟨?_, ?_⟩, ?_, ?_⟩
  · rintro ⟨sb, hsb⟩
    unfold selStep at hsb
    cases hcl : classify P s with
    | exitLoop => rw [hcl] at hsb; exact StepRes.noConfusion hsb
    | skip s1 => rw [hcl] at hsb; exact StepRes.noConfusion hsb
    | cand c s' =>
      rw [hcl] at hsb
      dsimp only at hsb
      by_cases hfee : c.pkgFees < P.minFee c.pkgSize
      · rw [if_pos hfee] at hsb; exact StepRes.noConfusion hsb
      · rw [if_neg hfee] at hsb
        by_cases hfit : testPackage s'.nBlockWeight P.nBlockMaxWeight
            s'.nBlockSigOpsCost P.dgpMaxBlockSigOps c.pkgSize c.pkgSigOps = true
        · rw [if_neg (by simp [hfit])] at hsb
          by_cases hfin : (packageOf P s' c.id).all (fun id => (P.ent id).isFinal) = true
          · rw [if_neg (by simp [hfin])] at hsb
            exact StepRes.noConfusion hsb
          · rw [if_pos (by simpa using hfin)] at hsb
            exact StepRes.noConfusion hsb
        · rw [if_pos hfit] at hsb
          try dsimp only at hsb
          by_cases hum : c.usingModified = true
          · rw [if_pos hum] at hsb
            try dsimp only at hsb
            by_cases hbrk : 1000 < s'.nConsecutiveFailed + 1 ∧
                P.nBlockMaxWeight - 4000 < s'.nBlockWeight
            · exact ⟨c, s', rfl, hfee, Bool.eq_false_iff.mpr hfit, hbrk.1, hbrk.2⟩
            · rw [if_neg hbrk] at hsb
              exact StepRes.noConfusion hsb
          · rw [if_neg hum] at hsb
            try dsimp only at hsb
            by_cases hbrk : 1000 < s'.nConsecutiveFailed + 1 ∧
                P.nBlockMaxWeight - 4000 < s'.nBlockWeight
            · exact ⟨c, s', rfl, hfee, Bool.eq_false_iff.mpr hfit, hbrk.1, hbrk.2⟩
            · rw [if_neg hbrk] at hsb
              exact StepRes.noConfusion hsb
  · rintro ⟨c, s', hcl, hfee, hfit, hcnt, hw⟩
    unfold selStep
    rw [hcl]
    dsimp only
    rw [if_neg hfee, if_pos (by simp [hfit])]
    by_cases hum : c.usingModified = true
    · rw [if_pos hum]
      try dsimp only
      rw [if_pos ⟨hcnt, hw⟩]
      exact ⟨_, rfl⟩
    · rw [if_neg hum]
      try dsimp only
      rw [if_pos ⟨hcnt, hw⟩]
      exact ⟨_, rfl⟩
  · intro sb hsb
    unfold selStep at hsb
    cases hcl : classify P s with
    | exitLoop => rw [hcl] at hsb; exact StepRes.noConfusion hsb
    | skip s1 => rw [hcl] at hsb; exact StepRes.noConfusion hsb
    | cand c s' =>
      rw [hcl] at hsb
      dsimp only at hsb
      obtain ⟨_, _, _, _, hbseq, _, _, _, _⟩ := classify_frame P s c s' hcl
      by_cases hfee : c.pkgFees < P.minFee c.pkgSize
      · rw [if_pos hfee] at hsb; exact StepRes.noConfusion hsb
      · rw [if_neg hfee] at hsb
        by_cases hfit : testPackage s'.nBlockWeight P.nBlockMaxWeight
            s'.nBlockSigOpsCost P.dgpMaxBlockSigOps c.pkgSize c.pkgSigOps = true
        · rw [if_neg (by simp [hfit])] at hsb
          by_cases hfin : (packageOf P s' c.id).all (fun id => (P.ent id).isFinal) = true
          · rw [if_neg (by simp [hfin])] at hsb
            exact StepRes.noConfusion hsb
          · rw [if_pos (by simpa using hfin)] at hsb
            exact StepRes.noConfusion hsb
        · rw [if_pos hfit] at hsb
          try dsimp only at hsb
          by_cases hum : c.usingModified = true
          · rw [if_pos hum] at hsb
            try dsimp only at hsb
            by_cases hbrk : 1000 < s'.nConsecutiveFailed + 1 ∧
                P.nBlockMaxWeight - 4000 < s'.nBlockWeight
            · rw [if_pos hbrk] at hsb
              injection hsb with hsb'
              rw [← hsb']
              exact hbseq
            · rw [if_neg hbrk] at hsb
              exact StepRes.noConfusion hsb
          · rw [if_neg hum] at hsb
            try dsimp only at hsb
            by_cases hbrk : 1000 < s'.nConsecutiveFailed + 1 ∧
                P.nBlockMaxWeight - 4000 < s'.nBlockWeight
            · rw [if_pos hbrk] at hsb
              injection hsb with hsb'
              rw [← hsb']
              exact hbseq
            · rw [if_neg hbrk] at hsb
              exact StepRes.noConfusion hsb
  · intro c s' hcl hfee hfit hfin
    unfold selStep
    rw [hcl]
    dsimp only
    rw [if_neg hfee, if_neg (by simp [hfit]), if_neg (by simp [hfin])]
    refine ⟨_, rfl, ?_⟩
    have h7 := (includePackage_spec P (sortForBlock P (packageOf P s' c.id))
      { s' with nConsecutiveFailed := 0 }).2.2.2.2.2.2.1
    show (includePackage P { s' with nConsecutiveFailed := 0 }
      (sortForBlock P (packageOf P s' c.id))).nConsecutiveFailed = 0
    rw [h7]

/-- Witness for C8: a near-full block (weight 7000 of max 8000) with
1000 consecutive failures and a candidate whose package fails the fit
test. -/
theorem addPackageTxs_termination_heuristic_witness :
    ((∃ sb, selStep selParamsBrk selStateBrk = .brk sb) ↔
      (∃ c s', classify selParamsBrk selStateBrk = .cand c s' ∧
        ¬ c.pkgFees < selParamsBrk.minFee c.pkgSize ∧
        testPackage s'.nBlockWeight selParamsBrk.nBlockMaxWeight s'.nBlockSigOpsCost
          selParamsBrk.dgpMaxBlockSigOps c.pkgSize c.pkgSigOps = false ∧
        1000 < s'.nConsecutiveFailed + 1 ∧
        selParamsBrk.nBlockMaxWeight - 4000 < s'.nBlockWeight)) ∧
    (∀ sb, selStep selParamsBrk selStateBrk = .brk sb →
      sb.blockSeq = selStateBrk.blockSeq) ∧
    (∀ c s', classify selParamsBrk selStateBrk = .cand c s' →
      ¬ c.pkgFees < selParamsBrk.minFee c.pkgSize →
      testPackage s'.nBlockWeight selParamsBrk.nBlockMaxWeight s'.nBlockSigOpsCost
        selParamsBrk.dgpMaxBlockSigOps c.pkgSize c.pkgSigOps = true →
      (packageOf selParamsBrk s' c.id).all (fun id => (selParamsBrk.ent id).isFinal) = true →
      ∃ s2, selStep selParamsBrk selStateBrk = .cont s2 ∧ s2.nConsecutiveFailed = 0) :=
  addPackageTxs_termination_heuristic selParamsBrk selStateBrk

theorem upfaStep_pred (P : SelParams) (Q : Nat → Prop) (aa : List Nat)
    (itId d : Nat) (acc : List ModEntry × Nat)
    (hAcc : ∀ m ∈ acc.1, Q m.id)
    (hNewd : d ∉ aa → Q d) :
    ∀ m ∈ (upfaStep P aa itId acc d).1, Q m.id := by
  intro m hm
  unfold upfaStep at hm
  dsimp only at hm
  split_ifs at hm with h1 h2
  · exact hAcc m hm
  · obtain ⟨m0, hm0, rfl⟩ := List.mem_map.mp hm
    have hid : (if m0.id = d then updateForParentInclusion P itId m0 else m0).id
        = m0.id := by
      split_ifs <;> rfl
    rw [hid]
    exact hAcc m0 hm0
  · rcases List.mem_append.mp hm with h | h
    · exact hAcc m h
    · have hm' : m = updateForParentInclusion P itId (modEntryOf P d) := by
        simpa using h
      rw [hm']
      exact hNewd h1

theorem upfaOne_pred (P : SelParams) (Q : Nat → Prop) (aa : List Nat) (itId : Nat)
    (hNew : ∀ d ∈ P.desc itId, d ∉ aa → Q d) :
    ∀ acc, (∀ m ∈ acc.1, Q m.id) → ∀ m ∈ (upfaOne P aa itId acc).1, Q m.id := by
  unfold upfaOne
  suffices haux : ∀ (l : List Nat), (∀ d ∈ l, d ∈ P.desc itId) →
      ∀ acc, (∀ m ∈ acc.1, Q m.id) →
        ∀ m ∈ (l.foldl (upfaStep P aa itId) acc).1, Q m.id by
    intro acc hacc
    exact haux (P.desc itId) (fun _ hd => hd) acc hacc
  intro l
  induction l with
  | nil => intro _ acc hacc; exact hacc
  | cons x xs ih =>
    intro hsub acc hacc
    exact ih (fun y hy => hsub y (List.mem_cons_of_mem _ hy)) _
      (upfaStep_pred P Q aa itId x acc hacc
        (hNew x (hsub x (List.mem_cons_self _ _))))

theorem updatePackagesForAdded_pred (P : SelParams) (Q : Nat → Prop)
    (aa : List Nat) (ov : List ModEntry)
    (hOv : ∀ m ∈ ov, Q m.id)
    (hNew : ∀ itId ∈ aa, ∀ d ∈ P.desc itId, d ∉ aa → Q d) :
    ∀ m ∈ (updatePackagesForAdded P aa ov).1, Q m.id := by
  unfold updatePackagesForAdded
  suffices haux : ∀ (l : List Nat), (∀ x ∈ l, x ∈ aa) →
      ∀ acc : List ModEntry × Nat, (∀ m ∈ acc.1, Q m.id) →
        ∀ m ∈ (l.foldl (fun acc itId => upfaOne P aa itId acc) acc).1, Q m.id by
    exact haux aa (fun _ hx => hx) (ov, 0) hOv
  intro l
  induction l with
  | nil => intro _ acc hacc; exact hacc
  | cons x xs ih =>
    intro hsub acc hacc
    exact ih (fun y hy => hsub y (List.mem_cons_of_mem _ hy)) _
      (upfaOne_pred P Q aa x (hNew x (hsub x (List.mem_cons_self _ _))) acc hacc)

theorem sortForBlock_perm (P : SelParams) (pkg : List Nat) :
    List.Perm (sortForBlock P pkg) pkg :=
  List.perm_insertionSort _ _

theorem sortForBlock_mem (P : SelParams) (pkg : List Nat) (x : Nat) :
    x ∈ sortForBlock P pkg ↔ x ∈ pkg :=
  (sortForBlock_perm P pkg).mem_iff

/-- Counterexample for C4: in this source the selection loop includes
every transaction via `AddToBlock` unconditionally — a transaction
carrying contract-creation/call opcodes, with contracts enabled, is
still included by `AddToBlock` and not by
`AttemptToAddContractToBlock` as the claim states. -/
theorem addPackageTxs_contract_branch_counterexample :
    (selParamsC4.ent 1).hasCreateOrCall = true ∧
    (addPackageTxsLoop selParamsC4 3 (initState [1])).trace
      = [(1, IncMethod.addToBlock)] ∧
    specClaimedMethod true (selParamsC4.ent 1) = IncMethod.attemptContract ∧
    IncMethod.addToBlock ≠ IncMethod.attemptContract := by
  refine ⟨rfl, by decide, rfl, by decide⟩

/-- C4 (amended): every transaction of a selected package is included
via `AddToBlock` — the loop in this source never invokes
`AttemptToAddContractToBlock`, regardless of contract opcodes; each
included transaction is erased from the modified-entry overlay, and
the packages-selected counter is incremented once per package. -/
theorem addPackageTxs_include_via_addToBlock (P : SelParams) (s : SelState)
    (c : Cand) (s' : SelState)
    (hc : classify P s = .cand c s')
    (hfee : ¬ c.pkgFees < P.minFee c.pkgSize)
    (hfit : testPackage s'.nBlockWeight P.nBlockMaxWeight s'.nBlockSigOpsCost
      P.dgpMaxBlockSigOps c.pkgSize c.pkgSigOps = true)
    (hfin : (packageOf P s' c.id).all (fun id => (P.ent id).isFinal) = true) :
    ∃ s2, selStep P s = .cont s2 ∧
      s2.trace = s.trace ++ (sortForBlock P (packageOf P s' c.id)).map
        (fun id => (id, IncMethod.addToBlock)) ∧
      (∀ id ∈ sortForBlock P (packageOf P s' c.id),
        overlayMem s2.mapModifiedTx id = false) ∧
      s2.nPackagesSelected = s.nPackagesSelected + 1 := by
  obtain ⟨hmtx, hftx, hcf, hib, hbseq, hw, hsg, hps, htr⟩ := classify_frame P s c s' hc
  unfold selStep
  rw [hc]
  dsimp only
  rw [if_neg hfee, if_neg (by simp [hfit]), if_neg (by simp [hfin])]
  obtain ⟨h1, h2, h3, h4, h5, h6, h7⟩ := includePackage_spec P
    (sortForBlock P (packageOf P s' c.id)) { s' with nConsecutiveFailed := 0 }
  refine ⟨_, rfl, ?_, ?_, ?_⟩
  · show (includePackage P { s' with nConsecutiveFailed := 0 }
      (sortForBlock P (packageOf P s' c.id))).trace = _
    rw [h2]
    show s'.trace ++ _ = _
    rw [htr]
  · intro id hid
    rw [Bool.eq_false_iff]
    intro hover
    obtain ⟨m, hm, hmid⟩ := (overlayMem_iff _ _).mp hover
    have hQ : ∀ m' ∈ (updatePackagesForAdded P (packageOf P s' c.id)
        ((includePackage P { s' with nConsecutiveFailed := 0 }
          (sortForBlock P (packageOf P s' c.id))).mapModifiedTx)).1,
        m'.id ∉ packageOf P s' c.id := by
      refine updatePackagesForAdded_pred P
        (fun id => id ∉ packageOf P s' c.id) _ _ ?_ ?_
      · intro m' hm'
        obtain ⟨hin, hnot⟩ := (h4 m').mp hm'
        intro hmem
        exact hnot ((sortForBlock_mem P _ m'.id).mpr hmem)
      · intro itId _ d _ hdn
        exact hdn
    exact hQ m hm (hmid ▸ (sortForBlock_mem P _ id).mp hid)
  · show (includePackage P { s' with nConsecutiveFailed := 0 }
      (sortForBlock P (packageOf P s' c.id))).nPackagesSelected + 1 = _
    rw [h5]
    show s'.nPackagesSelected + 1 = _
    rw [hps]

/-- Witness for the amended C4: the contract-opcode-carrying entry is
selected and included via `AddToBlock`. -/
theorem addPackageTxs_include_via_addToBlock_witness :
    ∃ s2, selStep selParamsC4 (initState [1]) = .cont s2 ∧
      s2.trace = (initState [1]).trace
        ++ (sortForBlock selParamsC4
              (packageOf selParamsC4 (initState []) (baseCand selParamsC4 1).id)).map
            (fun id => (id, IncMethod.addToBlock)) ∧
      (∀ id ∈ sortForBlock selParamsC4
          (packageOf selParamsC4 (initState []) (baseCand selParamsC4 1).id),
        overlayMem s2.mapModifiedTx id = false) ∧
      s2.nPackagesSelected = (initState [1]).nPackagesSelected + 1 :=
  addPackageTxs_include_via_addToBlock selParamsC4 (initState [1])
    (baseCand selParamsC4 1) (initState []) rfl (by decide) (by decide) (by decide)

theorem sorted_key_indexOf_lt (P : SelParams) (l : List Nat)
    (hs : l.Pairwise (fun a b => (P.ent a).acnt ≤ (P.ent b).acnt))
    (a t : Nat) (ha : a ∈ l) (ht : t ∈ l)
    (hlt : (P.ent a).acnt < (P.ent t).acnt) :
    l.indexOf a < l.indexOf t := by
  have hia : l.indexOf a < l.length := List.indexOf_lt_length.mpr ha
  have hit : l.indexOf t < l.length := List.indexOf_lt_length.mpr ht
  by_cases hj : l.indexOf t < l.indexOf a
  · have hR := (List.pairwise_iff_getElem.mp hs) (l.indexOf t) (l.indexOf a) hit hia hj
    rw [List.getElem_indexOf hit, List.getElem_indexOf hia] at hR
    omega
  · by_contra hcon
    push_neg at hcon
    have heq : l.indexOf t = l.indexOf a := by omega
    have h1 := List.getElem_indexOf hit
    have h2 := List.getElem_indexOf hia
    have hfin : (⟨l.indexOf t, hit⟩ : Fin l.length) = ⟨l.indexOf a, hia⟩ :=
      Fin.ext heq
    have hta : t = a := by
      have hget := congrArg l.get hfin
      simpa [List.get_eq_getElem, h1, h2] using hget
    rw [hta] at hlt
    exact absurd hlt (lt_irrefl _)

theorem blockTopoOk_append (P : SelParams)
    (hacnt : ∀ t a, a ∈ P.anc t → (P.ent a).acnt < (P.ent t).acnt)
    (l chunk : List Nat)
    (hTopo : blockTopoOk P l)
    (hDisj : ∀ x ∈ chunk, x ∉ l)
    (hNodup : chunk.Nodup)
    (hSorted : chunk.Pairwise (fun a b => (P.ent a).acnt ≤ (P.ent b).acnt))
    (hClosed : ∀ t ∈ chunk, ∀ a ∈ P.anc t, a ∈ l ∨ a ∈ chunk) :
    blockTopoOk P (l ++ chunk) := by
  obtain ⟨hnd, htopo⟩ := hTopo
  constructor
  · exact List.Nodup.append hnd hNodup (fun x hx hx' => hDisj x hx' hx)
  · intro t ht a ha
    rcases List.mem_append.mp ht with htl | htc
    · obtain ⟨hal, hidx⟩ := htopo t htl a ha
      refine ⟨List.mem_append.mpr (Or.inl hal), ?_⟩
      rw [List.indexOf_append_of_mem hal, List.indexOf_append_of_mem htl]
      exact hidx
    · rcases hClosed t htc a ha with hal | hac
      · refine ⟨List.mem_append.mpr (Or.inl hal), ?_⟩
        rw [List.indexOf_append_of_mem hal,
          List.indexOf_append_of_not_mem (hDisj t htc)]
        have := List.indexOf_lt_length.mpr hal
        omega
      · refine ⟨List.mem_append.mpr (Or.inr hac), ?_⟩
        rw [List.indexOf_append_of_not_mem (hDisj a hac),
          List.indexOf_append_of_not_mem (hDisj t htc)]
        have := sorted_key_indexOf_lt P chunk hSorted a t hac htc (hacnt t a ha)
        omega

theorem classify_skip_frame (P : SelParams) (s : SelState) (s1 : SelState)
    (h : classify P s = .skip s1) :
    s1.mapModifiedTx = s.mapModifiedTx ∧ s1.inBlock = s.inBlock ∧
    s1.blockSeq = s.blockSeq := by
  unfold classify at h
  cases hb : s.baseQueue with
  | nil =>
    rw [hb] at h
    cases hm : bestMod P.cmp s.mapModifiedTx <;> rw [hm] at h <;>
      exact Phase.noConfusion h
  | cons hd tl =>
    rw [hb] at h
    dsimp only at h
    by_cases hskip : overlayMem s.mapModifiedTx hd = true ∨ hd ∈ s.inBlock ∨ hd ∈ s.failedTx
    · rw [if_pos hskip] at h
      injection h with h1
      subst h1
      exact ⟨rfl, rfl, rfl⟩
    · rw [if_neg hskip] at h
      cases hm : bestMod P.cmp s.mapModifiedTx with
      | none => rw [hm] at h; exact Phase.noConfusion h
      | some m =>
        rw [hm] at h
        dsimp only at h
        by_cases hcmp : P.cmp m (modEntryOf P hd) = true
        · rw [if_pos hcmp] at h; exact Phase.noConfusion h
        · rw [if_neg hcmp] at h; exact Phase.noConfusion h

theorem classify_cand_notInBlock (P : SelParams) (s : SelState) (c : Cand)
    (s' : SelState) (h : classify P s = .cand c s')
    (hOv : ∀ m ∈ s.mapModifiedTx, m.id ∉ s.inBlock) :
    c.id ∉ s.inBlock := by
  unfold classify at h
  cases hb : s.baseQueue with
  | nil =>
    rw [hb] at h
    cases hm : bestMod P.cmp s.mapModifiedTx <;> rw [hm] at h
    · exact Phase.noConfusion h
    · injection h with h1 _
      rw [← h1]
      exact hOv _ (bestMod_mem _ _ _ hm)
  | cons hd tl =>
    rw [hb] at h
    dsimp only at h
    by_cases hskip : overlayMem s.mapModifiedTx hd = true ∨ hd ∈ s.inBlock ∨ hd ∈ s.failedTx
    · rw [if_pos hskip] at h
      exact Phase.noConfusion h
    · rw [if_neg hskip] at h
      push_neg at hskip
      cases hm : bestMod P.cmp s.mapModifiedTx with
      | none =>
        rw [hm] at h
        injection h with h1 _
        rw [← h1]
        exact hskip.2.1
      | some m =>
        rw [hm] at h
        dsimp only at h
        by_cases hcmp : P.cmp m (modEntryOf P hd) = true
        · rw [if_pos hcmp] at h
          injection h with h1 _
          rw [← h1]
          exact hOv _ (bestMod_mem _ _ _ hm)
        · rw [if_neg hcmp] at h
          injection h with h1 _
          rw [← h1]
          exact hskip.2.1

theorem SelInv_congr (P : SelParams) (s s1 : SelState)
    (hm : s1.mapModifiedTx = s.mapModifiedTx)
    (hi : s1.inBlock = s.inBlock) (hb : s1.blockSeq = s.blockSeq)
    (h : SelInv P s) : SelInv P s1 := by
  unfold SelInv at *
  rw [hm, hi, hb]
  exact h

theorem selStep_inv (P : SelParams) (hWF : WFMempool P) (s : SelState)
    (hInv : SelInv P s) (s2 : SelState)
    (h : selStep P s = .exitLoop s2 ∨ selStep P s = .ret s2 ∨
         selStep P s = .brk s2 ∨ selStep P s = .cont s2) :
    SelInv P s2 := by
  obtain ⟨hClo, hAcnt, hDesc, hAncNd⟩ := hWF
  unfold selStep at h
  cases hcl : classify P s with
  | exitLoop =>
    rw [hcl] at h
    rcases h with h | h | h | h
    · injection h with h1; subst h1; exact hInv
    · exact StepRes.noConfusion h
    · exact StepRes.noConfusion h
    · exact StepRes.noConfusion h
  | skip s1 =>
    rw [hcl] at h
    rcases h with h | h | h | h
    · exact StepRes.noConfusion h
    · exact StepRes.noConfusion h
    · exact StepRes.noConfusion h
    · injection h with h1
      subst h1
      obtain ⟨hm, hi, hb⟩ := classify_skip_frame P s s1 hcl
      exact SelInv_congr P s s1 hm hi hb hInv
  | cand c s' =>
    rw [hcl] at h
    dsimp only at h
    obtain ⟨hmtx, hftx, hcf, hib, hbseq, _, _, _, _⟩ := classify_frame P s c s' hcl
    have hInv' : SelInv P s' := SelInv_congr P s s' hmtx hib hbseq hInv
    obtain ⟨hTopo', hI3', hI4', hNd'⟩ := hInv'
    by_cases hfee : c.pkgFees < P.minFee c.pkgSize
    · rw [if_pos hfee] at h
      rcases h with h | h | h | h
      · exact StepRes.noConfusion h
      · injection h with h1; subst h1; exact ⟨hTopo', hI3', hI4', hNd'⟩
      · exact StepRes.noConfusion h
      · exact StepRes.noConfusion h
    · rw [if_neg hfee] at h
      by_cases hfit : testPackage s'.nBlockWeight P.nBlockMaxWeight
          s'.nBlockSigOpsCost P.dgpMaxBlockSigOps c.pkgSize c.pkgSigOps = true
      · -- fit test passed
        rw [if_neg (by simp [hfit])] at h
        by_cases hfin : (packageOf P s' c.id).all (fun id => (P.ent id).isFinal) = true
        · -- include path
          rw [if_neg (by simp [hfin])] at h
          rcases h with h | h | h | h
          · exact StepRes.noConfusion h
          · exact StepRes.noConfusion h
          · exact StepRes.noConfusion h
          · injection h with h1
            subst h1
            have hcima : c.id ∉ s'.inBlock := by
              rw [hib]
              exact classify_cand_notInBlock P s c s' hcl
                (fun m hm => hInv.2.2.1 m hm)
            have hirr : ∀ x, x ∉ P.anc x :=
              fun x hx => absurd (hAcnt x x hx) (lt_irrefl _)
            have hPkgMem : ∀ x, x ∈ packageOf P s' c.id ↔
                (x ∈ P.anc c.id ∧ x ∉ s'.inBlock) ∨ x = c.id := by
              intro x
              unfold packageOf
              simp [List.mem_filter, List.mem_append]
            have hPkgNotIn : ∀ x ∈ packageOf P s' c.id, x ∉ s'.inBlock := by
              intro x hx
              rcases (hPkgMem x).mp hx with ⟨_, hni⟩ | rfl
              · exact hni
              · exact hcima
            have hPkgNodup : (packageOf P s' c.id).Nodup := by
              unfold packageOf
              refine List.Nodup.append ((hAncNd c.id).filter _)
                (List.nodup_singleton _) ?_
              intro x hx hx'
              have hxa : x ∈ P.anc c.id := List.mem_of_mem_filter hx
              have hxc : x = c.id := by simpa using hx'
              rw [hxc] at hxa
              exact hirr _ hxa
            have hPkgClosed : ∀ t ∈ packageOf P s' c.id, ∀ a ∈ P.anc t,
                a ∈ s'.inBlock ∨ a ∈ packageOf P s' c.id := by
              intro t ht a ha
              by_cases hain : a ∈ s'.inBlock
              · exact Or.inl hain
              · refine Or.inr ?_
                rcases (hPkgMem t).mp ht with ⟨hta, _⟩ | rfl
                · exact (hPkgMem a).mpr (Or.inl ⟨hClo c.id t hta a ha, hain⟩)
                · exact (hPkgMem a).mpr (Or.inl ⟨ha, hain⟩)
            have hperm := sortForBlock_perm P (packageOf P s' c.id)
            have hChunkNodup : (sortForBlock P (packageOf P s' c.id)).Nodup :=
              hperm.nodup_iff.mpr hPkgNodup
            have hSorted : (sortForBlock P (packageOf P s' c.id)).Pairwise
                (fun a b => (P.ent a).acnt ≤ (P.ent b).acnt) := by
              haveI : IsTotal Nat (fun a b => (P.ent a).acnt ≤ (P.ent b).acnt) :=
                ⟨fun a b => le_total _ _⟩
              haveI : IsTrans Nat (fun a b => (P.ent a).acnt ≤ (P.ent b).acnt) :=
                ⟨fun a b c2 hab hbc => le_trans hab hbc⟩
              exact List.sorted_insertionSort _ _
            obtain ⟨h1, h2, h3, h4, h5, h6, h7, h8⟩ := includePackage_spec P
              (sortForBlock P (packageOf P s' c.id)) { s' with nConsecutiveFailed := 0 }
            have hTopoNew : blockTopoOk P
                (s'.blockSeq ++ sortForBlock P (packageOf P s' c.id)) := by
              refine blockTopoOk_append P hAcnt _ _ hTopo' ?_ hChunkNodup hSorted ?_
              · intro x hx hxl
                exact hPkgNotIn x ((sortForBlock_mem P _ x).mp hx) ((hI3' x).mpr hxl)
              · intro t ht a ha
                rcases hPkgClosed t ((sortForBlock_mem P _ t).mp ht) a ha with hin | hp
                · exact Or.inl ((hI3' a).mp hin)
                · exact Or.inr ((sortForBlock_mem P _ a).mpr hp)
            refine ⟨?_, ?_, ?_, ?_⟩
            · show blockTopoOk P ((includePackage P { s' with nConsecutiveFailed := 0 }
                (sortForBlock P (packageOf P s' c.id))).blockSeq)
              rw [h1]
              exact hTopoNew
            · intro x
              show x ∈ (includePackage P { s' with nConsecutiveFailed := 0 }
                  (sortForBlock P (packageOf P s' c.id))).inBlock ↔
                x ∈ (includePackage P { s' with nConsecutiveFailed := 0 }
                  (sortForBlock P (packageOf P s' c.id))).blockSeq
              rw [h3 x, h1, List.mem_append]
              exact or_congr (hI3' x) Iff.rfl
            · intro m hm
              have hQ : ∀ m' ∈ (updatePackagesForAdded P (packageOf P s' c.id)
                  ((includePackage P { s' with nConsecutiveFailed := 0 }
                    (sortForBlock P (packageOf P s' c.id))).mapModifiedTx)).1,
                  m'.id ∉ s'.inBlock ∧ m'.id ∉ packageOf P s' c.id := by
                refine updatePackagesForAdded_pred P
                  (fun id => id ∉ s'.inBlock ∧ id ∉ packageOf P s' c.id) _ _ ?_ ?_
                · intro m' hm'
                  obtain ⟨hin', hnot'⟩ := (h4 m').mp hm'
                  refine ⟨hI4' m' hin', ?_⟩
                  intro hp
                  exact hnot' ((sortForBlock_mem P _ m'.id).mpr hp)
                · intro itId hit d hd hdn
                  refine ⟨?_, hdn⟩
                  intro hdin
                  rcases hDesc itId d hd with hanc | rfl
                  · have hdb : d ∈ s'.blockSeq := (hI3' d).mp hdin
                    have hitb := (hTopo'.2 d hdb itId hanc).1
                    have hitin : itId ∈ s'.inBlock := (hI3' itId).mpr hitb
                    exact hPkgNotIn itId hit hitin
                  · exact hPkgNotIn d hit hdin
              have hQm := hQ m hm
              intro hmem
              rcases (h3 m.id).mp hmem with hin | hid
              · exact hQm.1 hin
              · exact hQm.2 ((sortForBlock_mem P _ m.id).mp hid)
            · show ((includePackage P { s' with nConsecutiveFailed := 0 }
                (sortForBlock P (packageOf P s' c.id))).inBlock).Nodup
              exact h8 hNd'
        · -- finality failed
          rw [if_pos (by simpa using hfin)] at h
          by_cases hum : c.usingModified = true
          · rw [if_pos hum] at h
            rcases h with h | h | h | h
            · exact StepRes.noConfusion h
            · exact StepRes.noConfusion h
            · exact StepRes.noConfusion h
            · injection h with h1
              subst h1
              exact ⟨hTopo', hI3',
                fun m hm => hI4' m ((eraseMod_mem s'.mapModifiedTx c.id m).mp hm).1,
                hNd'⟩
          · rw [if_neg hum] at h
            rcases h with h | h | h | h
            · exact StepRes.noConfusion h
            · exact StepRes.noConfusion h
            · exact StepRes.noConfusion h
            · injection h with h1
              subst h1
              exact ⟨hTopo', hI3', hI4', hNd'⟩
      · -- fit test failed
        rw [if_pos hfit] at h
        try dsimp only at h
        by_cases hum : c.usingModified = true
        · rw [if_pos hum] at h
          try dsimp only at h
          by_cases hbrk : 1000 < s'.nConsecutiveFailed + 1 ∧
              P.nBlockMaxWeight - 4000 < s'.nBlockWeight
          · rw [if_pos hbrk] at h
            rcases h with h | h | h | h
            · exact StepRes.noConfusion h
            · exact StepRes.noConfusion h
            · injection h with h1
              subst h1
              exact ⟨hTopo', hI3',
                fun m hm => hI4' m ((eraseMod_mem s'.mapModifiedTx c.id m).mp hm).1,
                hNd'⟩
            · exact StepRes.noConfusion h
          · rw [if_neg hbrk] at h
            rcases h with h | h | h | h
            · exact StepRes.noConfusion h
            · exact StepRes.noConfusion h
            · exact StepRes.noConfusion h
            · injection h with h1
              subst h1
              exact ⟨hTopo', hI3',
                fun m hm => hI4' m ((eraseMod_mem s'.mapModifiedTx c.id m).mp hm).1,
                hNd'⟩
        · rw [if_neg hum] at h
          try dsimp only at h
          by_cases hbrk : 1000 < s'.nConsecutiveFailed + 1 ∧
              P.nBlockMaxWeight - 4000 < s'.nBlockWeight
          · rw [if_pos hbrk] at h
            rcases h with h | h | h | h
            · exact StepRes.noConfusion h
            · exact StepRes.noConfusion h
            · injection h with h1
              subst h1
              exact ⟨hTopo', hI3', hI4', hNd'⟩
            · exact StepRes.noConfusion h
          · rw [if_neg hbrk] at h
            rcases h with h | h | h | h
            · exact StepRes.noConfusion h
            · exact StepRes.noConfusion h
            · exact StepRes.noConfusion h
            · injection h with h1
              subst h1
              exact ⟨hTopo', hI3', hI4', hNd'⟩

theorem addPackageTxsLoop_inv (P : SelParams) (hWF : WFMempool P) :
    ∀ (fuel : Nat) (s : SelState), SelInv P s →
      SelInv P (addPackageTxsLoop P fuel s) := by
  intro fuel
  induction fuel with
  | zero => intro s h; exact h
  | succ n ih =>
    intro s h
    show SelInv P (match selStep P s with
      | .exitLoop s1 => s1
      | .ret s1 => s1
      | .brk s1 => s1
      | .cont s1 => addPackageTxsLoop P n s1)
    cases hstep : selStep P s with
    | exitLoop s1 =>
      exact selStep_inv P hWF s h s1 (Or.inl hstep)
    | ret s1 =>
      exact selStep_inv P hWF s h s1 (Or.inr (Or.inl hstep))
    | brk s1 =>
      exact selStep_inv P hWF s h s1 (Or.inr (Or.inr (Or.inl hstep)))
    | cont s1 =>
      exact ih s1 (selStep_inv P hWF s h s1 (Or.inr (Or.inr (Or.inr hstep))))

/-- C2: after any number of iterations of the selection loop starting
from the reset state, over a well-formed mempool, the block's
transaction sequence is duplicate-free, the `inBlock` set holds no
duplicates, and every unconfirmed (in-mempool) ancestor of an included
transaction is itself included at a strictly earlier position. -/
theorem addPackageTxs_ancestors_before (P : SelParams) (fuel : Nat)
    (base : List Nat) (hWF : WFMempool P) :
    (addPackageTxsLoop P fuel (initState base)).blockSeq.Nodup ∧
    (addPackageTxsLoop P fuel (initState base)).inBlock.Nodup ∧
    ∀ t ∈ (addPackageTxsLoop P fuel (initState base)).blockSeq,
      ∀ a ∈ P.anc t,
        a ∈ (addPackageTxsLoop P fuel (initState base)).blockSeq ∧
        (addPackageTxsLoop P fuel (initState base)).blockSeq.indexOf a
          < (addPackageTxsLoop P fuel (initState base)).blockSeq.indexOf t := by
  have hInit : SelInv P (initState base) := by
    refine ⟨⟨List.nodup_nil, ?_⟩, ?_, ?_, List.nodup_nil⟩
    · intro t ht
      exact absurd ht (List.not_mem_nil t)
    · intro id
      exact Iff.rfl
    · intro m hm
      exact absurd hm (List.not_mem_nil m)
  have hs := addPackageTxsLoop_inv P hWF fuel (initState base) hInit
  exact ⟨hs.1.1, hs.2.2.2, hs.1.2⟩

/-- Witness for C2: a parent-child mempool (2 depends on 1) with the
child first in the base stream; the loop includes the package in
topological order. -/
theorem addPackageTxs_ancestors_before_witness :
    (addPackageTxsLoop selParamsC2 5 (initState [2, 1])).blockSeq.Nodup ∧
    (addPackageTxsLoop selParamsC2 5 (initState [2, 1])).inBlock.Nodup ∧
    ∀ t ∈ (addPackageTxsLoop selParamsC2 5 (initState [2, 1])).blockSeq,
      ∀ a ∈ selParamsC2.anc t,
        a ∈ (addPackageTxsLoop selParamsC2 5 (initState [2, 1])).blockSeq ∧
        (addPackageTxsLoop selParamsC2 5 (initState [2, 1])).blockSeq.indexOf a
          < (addPackageTxsLoop selParamsC2 5 (initState [2, 1])).blockSeq.indexOf t :=
  addPackageTxs_ancestors_before selParamsC2 5 [2, 1] (by
    refine ⟨?_, ?_, ?_, ?_⟩
    · intro t a ha b hb
      by_cases h2 : t = 2
      · subst h2
        simp [selParamsC2] at ha
        subst ha
        simp [selParamsC2] at hb
      · simp [selParamsC2, h2] at ha
    · intro t a ha
      by_cases h2 : t = 2
      · subst h2
        simp [selParamsC2] at ha
        subst ha
        simp [selParamsC2]
      · simp [selParamsC2, h2] at ha
    · intro t d hd
      by_cases h1 : t = 1
      · subst h1
        simp [selParamsC2] at hd
        rcases hd with rfl | rfl
        · exact Or.inr rfl
        · exact Or.inl (by simp [selParamsC2])
      · by_cases h2 : t = 2
        · subst h2
          simp [selParamsC2, h1] at hd
          subst hd
          exact Or.inr rfl
        · simp [selParamsC2, h1, h2] at hd
    · intro t
      by_cases h2 : t = 2 <;> simp [selParamsC2, h2])

end QtumMiner
